import Mathlib

/-!
# Verification of `queue.hpp` : the ring-buffer queue `QueueRing<T>`

Shallow embedding of `src/queue.hpp`.

* An object of class `QueueRing<T>` is the record of its four data members
  (`array_`, `head_`, `tail_`, `size_`).  `array_` is a pointer: an address in
  an explicit heap of `new[]`-allocated blocks, or `none` for `nullptr`.
* `std::size_t` arithmetic is arithmetic on `Nat` reduced modulo `2^64` where
  the source adds or subtracts.
* A member function is a function from the object and the heap to an
  `Outcome`: normal return, a thrown exception (together with the state in
  which it was thrown), or undefined behaviour (division by zero, access
  outside an allocated block, `delete[]` of a block that is not live).
-/

namespace RingQueue

/-! ## Machine integers, exceptions, outcomes -/

/-- Modulus of `std::size_t` arithmetic (`2^64`). -/
def SIZE_MOD : Nat := 18446744073709551616

/-- Value of `QueueRing::MAX_STACK_SIZE` (queue.hpp, line 22). -/
def MAX_STACK_SIZE : Nat := 100000000

/-- Exceptions thrown by the code: the classes `QueueOverflow` (whose reason is
always the string "QueueOverflow"), `WrongQueueSize` (which carries its reason)
and `std::bad_alloc` from an unguarded `new[]`. -/
inductive Exn where
  | QueueOverflow
  | WrongQueueSize (reason_ : String)
  | bad_alloc
  deriving DecidableEq, Repr

/-- Member `what()` of the exception classes. -/
def Exn.what : Exn → String
  | .QueueOverflow => "QueueOverflow"
  | .WrongQueueSize reason_ => reason_
  | .bad_alloc => "std::bad_alloc"

/-- Result of running a piece of code from a state: normal return with a
value and the state after, an exception with the state at the throw, or
undefined behaviour. -/
inductive Outcome (σ α : Type) where
  | ok (a : α) (s : σ)
  | throw (e : Exn) (s : σ)
  | ub
  deriving DecidableEq, Repr

/-! ## The heap of `new[]` blocks -/

/-- Pointer to the first element of a block: `none` is `nullptr`. -/
abbrev Ptr := Option Nat

/-- Heap of array blocks.  `blocks[a]` is `some b` for a live block with
contents `b`, `none` once it has been released with `delete[]`.  `avail` is
the number of elements `new[]` can still hand out. -/
structure Heap (T : Type) where
  blocks : List (Option (List T))
  avail : Nat
  deriving DecidableEq, Repr

variable {T : Type}

/-- Contents of the live block a pointer designates, if any. -/
def Heap.block (h : Heap T) (p : Ptr) : Option (List T) :=
  match p with
  | none => none
  | some a =>
    match h.blocks[a]? with
    | some (some b) => some b
    | _ => none

/-- Read `p[i]`; `none` when the access is outside a live block. -/
def Heap.load (h : Heap T) (p : Ptr) (i : Nat) : Option T :=
  match h.block p with
  | some b => b[i]?
  | none => none

/-- Write `p[i] = v`; `none` when the access is outside a live block. -/
def Heap.store (h : Heap T) (p : Ptr) (i : Nat) (v : T) : Option (Heap T) :=
  match p, h.block p with
  | some a, some b =>
    if i < b.length then
      some { h with blocks := h.blocks.set a (some (b.set i v)) }
    else none
  | _, _ => none

/-- Expression `new T[n]`: a fresh block of `n` default-initialised elements,
or `none` when the allocation cannot be satisfied. -/
def Heap.alloc [Inhabited T] (h : Heap T) (n : Nat) : Option (Nat × Heap T) :=
  if n ≤ h.avail then
    some (h.blocks.length,
      { blocks := h.blocks ++ [some (List.replicate n default)], avail := h.avail - n })
  else none

/-- Statement `delete[] p`: no effect on `nullptr`, releases a live block,
`none` (undefined behaviour) otherwise. -/
def Heap.delete (h : Heap T) (p : Ptr) : Option (Heap T) :=
  match p with
  | none => some h
  | some a =>
    match h.block (some a) with
    | some b => some { blocks := h.blocks.set a none, avail := h.avail + b.length }
    | none => none

/-! ## The class `QueueRing<T>` -/

/-- Data members of `QueueRing<T>` (queue.hpp, lines 45-49). -/
structure QueueRing where
  array_ : Ptr
  head_ : Nat
  tail_ : Nat
  size_ : Nat
  deriving DecidableEq, Repr

/-- State a member function works on: the object and the heap. -/
abbrev State (T : Type) := QueueRing × Heap T

/-- Member function `QueueRing<T>::isEmpty` (lines 203-207). -/
def QueueRing.isEmpty (q : QueueRing) : Bool :=
  q.head_ == 0

/-- Member function `QueueRing<T>::isFull` (lines 209-216); `size_ - 1` and
`tail_ + 1` are computed modulo `2^64`. -/
def QueueRing.isFull (q : QueueRing) : Bool :=
  if q.head_ == 0 && q.tail_ == (q.size_ + SIZE_MOD - 1) % SIZE_MOD then true
  else if q.head_ == (q.tail_ + 1) % SIZE_MOD then true
  else false

/-- Constructor `QueueRing<T>::QueueRing(std::size_t size)` (lines 73-92). -/
def QueueRing.ctor [Inhabited T] (size : Nat) (h : Heap T) :
    Outcome (Heap T) QueueRing :=
  if size > MAX_STACK_SIZE then
    .throw (.WrongQueueSize "Maximum size reached") h
  else
    match h.alloc ((size + 1) % SIZE_MOD) with
    | none => .throw (.WrongQueueSize "Memory allocation failed") h
    | some (p, h1) => .ok { array_ := some p, head_ := 0, tail_ := 0, size_ := size } h1

/-- Member function `QueueRing<T>::enQueue` (lines 163-176).  The division
by `size_ == 0` and a store outside the block are undefined behaviour. -/
def QueueRing.enQueue (q : QueueRing) (element : T) (h : Heap T) :
    Outcome (State T) Unit :=
  if q.isFull then
    .throw .QueueOverflow (q, h)
  else
    let head := if q.head_ == 0 then 1 else q.head_
    if q.size_ = 0 then .ub
    else
      let tail := ((q.tail_ + 1) % SIZE_MOD) % q.size_
      match h.store q.array_ tail element with
      | none => .ub
      | some h1 => .ok () ({ q with head_ := head, tail_ := tail }, h1)

/-- Member function `QueueRing<T>::deQueue` (lines 178-201).  The heap is
read, not written. -/
def QueueRing.deQueue (q : QueueRing) (h : Heap T) : Outcome (State T) T :=
  if q.isEmpty then
    .throw (.WrongQueueSize "Empty queue") (q, h)
  else
    match h.load q.array_ q.head_ with
    | none => .ub
    | some tmp =>
      if q.head_ == q.tail_ then
        .ok tmp ({ q with head_ := 0, tail_ := 0 }, h)
      else if q.size_ = 0 then .ub
      else
        .ok tmp ({ q with head_ := ((q.head_ + 1) % SIZE_MOD) % q.size_ }, h)

/-- The do-while loop of the copy constructor (lines 104-109): `i` is the loop
variable, `dst` the `array_` of the object under construction.  The value
returned is the list of the indices at which the body ran, in order.
`none` only when `fuel` iterations did not reach the exit. -/
def copyLoop (src : QueueRing) (dst : Ptr) :
    Nat → Nat → Heap T → Option (Outcome (Heap T) (List Nat))
  | 0, _, _ => none
  | fuel + 1, i, h =>
    match h.load src.array_ i with
    | none => some .ub
    | some v =>
      match h.store dst i v with
      | none => some .ub
      | some h1 =>
        if src.size_ = 0 then some .ub
        else
          let i1 := ((i + 1) % SIZE_MOD) % src.size_
          if i1 != ((src.tail_ + 1) % SIZE_MOD) % src.size_ then
            match copyLoop src dst fuel i1 h1 with
            | some (.ok is h2) => some (.ok (i :: is) h2)
            | r => r
          else some (.ok [i] h1)

/-- Copy constructor `QueueRing<T>::QueueRing(const QueueRing<T>& src)`
(lines 94-110).  The source is `const` and is not part of the result. -/
def QueueRing.ctor_copy [Inhabited T] (fuel : Nat) (src : QueueRing) (h : Heap T) :
    Option (Outcome (Heap T) QueueRing) :=
  match h.alloc ((src.size_ + 1) % SIZE_MOD) with
  | none => some (.throw .bad_alloc h)
  | some (p, h1) =>
    match copyLoop src (some p) fuel src.head_ h1 with
    | none => none
    | some (.ok _ h2) =>
      some (.ok { array_ := some p, head_ := src.head_, tail_ := src.tail_,
                  size_ := src.size_ } h2)
    | some (.throw e h2) => some (.throw e h2)
    | some .ub => some .ub

/-- Move constructor `QueueRing<T>::QueueRing(QueueRing<T>&& src)`
(lines 112-123): the value is the new object, the state after is the source
object and the heap. -/
def QueueRing.ctor_move (src : QueueRing) (h : Heap T) : Outcome (State T) QueueRing :=
  .ok { array_ := src.array_, head_ := src.head_, tail_ := src.tail_, size_ := src.size_ }
    ({ array_ := none, head_ := 0, tail_ := 0, size_ := 0 }, h)

/-- Destructor `QueueRing<T>::~QueueRing` (lines 157-161); `none` is
undefined behaviour. -/
def QueueRing.dtor (q : QueueRing) (h : Heap T) : Option (Heap T) :=
  h.delete q.array_

/-- Object bound to a reference parameter of a member function of `*this`:
`*this` itself, or another object with the given members. -/
inductive Ref where
  | self
  | other (q : QueueRing)
  deriving DecidableEq, Repr

/-- Function `swap(QueueRing<U>&, QueueRing<U>&)` (lines 240-247) on two
distinct objects. -/
def swap (first second : QueueRing) : QueueRing × QueueRing :=
  ({ array_ := second.array_, head_ := second.head_, tail_ := second.tail_,
     size_ := second.size_ },
   { array_ := first.array_, head_ := first.head_, tail_ := first.tail_,
     size_ := first.size_ })

/-- Copy assignment `QueueRing<T>::operator=(const QueueRing<T>&)`
(lines 125-135).  The state after is `*this` and the heap; the temporary is
destroyed at the end of its block. -/
def QueueRing.assign_copy [Inhabited T] (fuel : Nat) (self : QueueRing) (src : Ref)
    (h : Heap T) : Option (Outcome (State T) Unit) :=
  match src with
  | .self => some (.ok () (self, h))
  | .other s =>
    match QueueRing.ctor_copy fuel s h with
    | none => none
    | some (.ok tmp h1) =>
      match h1.delete (swap self tmp).2.array_ with
      | none => some .ub
      | some h2 => some (.ok () ((swap self tmp).1, h2))
    | some (.throw e h1) => some (.throw e (self, h1))
    | some .ub => some .ub

/-- Move assignment `QueueRing<T>::operator=(QueueRing<T>&&)` (lines 137-155).
The state after is `*this`, the source and the heap. -/
def QueueRing.assign_move (self : QueueRing) (src : Ref) (h : Heap T) :
    Outcome (QueueRing × Ref × Heap T) Unit :=
  match src with
  | .self => .ok () (self, .self, h)
  | .other s =>
    match h.delete self.array_ with
    | none => .ub
    | some h1 =>
      .ok ()
        ({ array_ := s.array_, head_ := s.head_, tail_ := s.tail_, size_ := s.size_ },
         .other { array_ := none, head_ := 0, tail_ := 0, size_ := 0 }, h1)

/-! ## Sequences of calls on one queue -/

/-- A call of a public member function. -/
inductive Call (T : Type) where
  | enQueue (element : T)
  | deQueue
  | isEmpty
  | isFull
  deriving DecidableEq, Repr

/-- What the caller observes of a call. -/
inductive Reply (T : Type) where
  | done
  | value (v : T)
  | bool (b : Bool)
  | failed (e : Exn)
  deriving DecidableEq, Repr

/-- One call: the reply and the state after it; `none` on undefined
behaviour. -/
def call (s : State T) (c : Call T) : Option (Reply T × State T) :=
  match c with
  | .enQueue x =>
    match s.1.enQueue x s.2 with
    | .ok _ s1 => some (.done, s1)
    | .throw e s1 => some (.failed e, s1)
    | .ub => none
  | .deQueue =>
    match s.1.deQueue s.2 with
    | .ok v s1 => some (.value v, s1)
    | .throw e s1 => some (.failed e, s1)
    | .ub => none
  | .isEmpty => some (.bool s.1.isEmpty, s)
  | .isFull => some (.bool s.1.isFull, s)

/-- A sequence of calls in program order: the replies and the final state. -/
def runCalls (s : State T) : List (Call T) → Option (List (Reply T) × State T)
  | [] => some ([], s)
  | c :: cs =>
    match call s c with
    | none => none
    | some (r, s1) =>
      match runCalls s1 cs with
      | none => none
      | some (rs, s2) => some (r :: rs, s2)

/-- Empty heap with room for `n` elements. -/
def Heap.empty (T : Type) (n : Nat) : Heap T := { blocks := [], avail := n }

/-- Construct `QueueRing<T>(size)` and run a sequence of calls on it. -/
def session [Inhabited T] (size : Nat) (h : Heap T) (cs : List (Call T)) :
    Option (List (Reply T) × State T) :=
  match (QueueRing.ctor size h : Outcome (Heap T) QueueRing) with
  | .ok q h1 => runCalls (q, h1) cs
  | _ => none

/-! ## Reachable states -/

/-- Invariant of the states reached from `QueueRing<T>(C)` by member calls:
the capacity is `C`, `array_` points to a live block of `C + 1` elements,
and the indices are both `0` or both below `C`; for `C ≥ 2` a queue with
`head_ == 0` never has `tail_ == C - 1`. -/
def Inv (C : Nat) (s : State T) : Prop :=
  s.1.size_ = C ∧ C ≤ MAX_STACK_SIZE ∧
  (∃ a b, s.1.array_ = some a ∧ s.2.block (some a) = some b ∧ b.length = C + 1) ∧
  ((s.1.head_ = 0 ∧ s.1.tail_ = 0) ∨ (s.1.head_ < C ∧ s.1.tail_ < C)) ∧
  (2 ≤ C → s.1.head_ = 0 → s.1.tail_ + 1 ≠ C)

/-- States reached from a successful `QueueRing<T>(C)` by a sequence of
member calls, failing calls included. -/
def Reachable [Inhabited T] (C : Nat) (s : State T) : Prop :=
  ∃ (h0 : Heap T) (cs : List (Call T)) (rs : List (Reply T)), session C h0 cs = some (rs, s)

/-- State of a `QueueRing<int>(3)` after `enQueue(10)`, `enQueue(20)`,
`deQueue()`, `enQueue(30)`: the tail index has wrapped to slot 0. -/
def wrappedState : State Int :=
  ({ array_ := some 0, head_ := 2, tail_ := 0, size_ := 3 },
   { blocks := [some [30, 10, 20, 0]], avail := 0 })

/-- Replies to `n` successive calls of `deQueue`; `none` on undefined
behaviour. -/
def deQueueReplies (s : State T) (n : Nat) : Option (List (Reply T)) :=
  (runCalls s (List.replicate n .deQueue)).map Prod.fst

/-- State of a `QueueRing<int>(3)` built in a heap with room for 8 elements,
after `enQueue(10)`, `enQueue(20)`, `deQueue()`, `enQueue(30)`. -/
def wrappedStateRoomy : State Int :=
  ({ array_ := some 0, head_ := 2, tail_ := 0, size_ := 3 },
   { blocks := [some [30, 10, 20, 0]], avail := 4 })

/-- Well-formed queue in a heap, as the constructor builds it: `size_` passed
the check against `MAX_STACK_SIZE`, `array_` points to a live block of
`size_ + 1` elements (`new T[size_ + 1]`), and both indices are at most
`size_`. -/
def Valid (s : State T) : Prop :=
  s.1.size_ ≤ MAX_STACK_SIZE ∧ s.1.head_ ≤ s.1.size_ ∧ s.1.tail_ ≤ s.1.size_ ∧
  ∃ b, s.2.block s.1.array_ = some b ∧ b.length = s.1.size_ + 1

/-! ## Lemmas on the heap -/

theorem Heap.store_some {h : Heap T} {a : Nat} {b : List T} {i : Nat} (v : T)
    (hb : h.block (some a) = some b) (hi : i < b.length) :
    h.store (some a) i v = some { h with blocks := h.blocks.set a (some (b.set i v)) } := by
  simp [Heap.store, hb, hi]

theorem Heap.store_inv {h h1 : Heap T} {p : Ptr} {i : Nat} {v : T}
    (hs : h.store p i v = some h1) :
    ∃ a b, p = some a ∧ h.block (some a) = some b ∧ i < b.length ∧
      h1 = { h with blocks := h.blocks.set a (some (b.set i v)) } := by
  cases p with
  | none => simp [Heap.store] at hs
  | some a =>
    cases hb : h.block (some a) with
    | none => simp [Heap.store, hb] at hs
    | some b =>
      by_cases hi : i < b.length
      · simp [Heap.store, hb, hi] at hs
        exact ⟨a, b, rfl, hb, hi, hs.symm⟩
      · simp [Heap.store, hb, hi] at hs

theorem Heap.block_lt {h : Heap T} {a : Nat} {b : List T}
    (hb : h.block (some a) = some b) : a < h.blocks.length ∧ h.blocks[a]? = some (some b) := by
  unfold Heap.block at hb
  simp only at hb
  split at hb
  · rename_i b1 hb1
    simp at hb
    subst hb
    refine ⟨?_, hb1⟩
    by_contra hlt
    rw [List.getElem?_eq_none (by omega)] at hb1
    simp at hb1
  · simp at hb

theorem Heap.block_set_same {h : Heap T} {a : Nat} (hlt : a < h.blocks.length) (ob : Option (List T)) :
    ({ h with blocks := h.blocks.set a ob } : Heap T).block (some a) = ob := by
  unfold Heap.block
  simp [List.getElem?_set_self, hlt]
  cases ob <;> simp

theorem Heap.block_set_other {h : Heap T} {a a1 : Nat} (hne : a1 ≠ a) (ob : Option (List T)) :
    ({ h with blocks := h.blocks.set a ob } : Heap T).block (some a1) = h.block (some a1) := by
  unfold Heap.block
  simp [List.getElem?_set_ne (Ne.symm hne)]

/-! ## The member functions case by case -/

theorem isFull_iff (q : QueueRing) (hs : q.size_ < SIZE_MOD) (ht : q.tail_ + 1 < SIZE_MOD) :
    q.isFull = true ↔ (q.head_ = 0 ∧ q.tail_ + 1 = q.size_) ∨ q.head_ = q.tail_ + 1 := by
  unfold QueueRing.isFull
  unfold SIZE_MOD at *
  have e1 : (q.tail_ + 1) % 18446744073709551616 = q.tail_ + 1 := Nat.mod_eq_of_lt ht
  rw [e1]
  by_cases h0 : q.size_ = 0
  · simp [h0]
    omega
  · have e2 : (q.size_ + 18446744073709551616 - 1) % 18446744073709551616 = q.size_ - 1 := by
      omega
    rw [e2]
    simp
    omega

theorem enQueue_full (q : QueueRing) (x : T) (h : Heap T) (hf : q.isFull = true) :
    q.enQueue x h = .throw .QueueOverflow (q, h) := by
  simp [QueueRing.enQueue, hf]

theorem enQueue_ok (q : QueueRing) (x : T) (h : Heap T) {a : Nat} {b : List T}
    (hf : q.isFull = false) (hsz : q.size_ ≠ 0) (ht : q.tail_ + 1 < SIZE_MOD)
    (ha : q.array_ = some a) (hb : h.block (some a) = some b)
    (hlen : (q.tail_ + 1) % q.size_ < b.length) :
    q.enQueue x h = .ok ()
      ({ q with head_ := if q.head_ = 0 then 1 else q.head_, tail_ := (q.tail_ + 1) % q.size_ },
       { h with blocks := h.blocks.set a (some (b.set ((q.tail_ + 1) % q.size_) x)) }) := by
  have e1 : (q.tail_ + 1) % SIZE_MOD = q.tail_ + 1 := Nat.mod_eq_of_lt ht
  simp [QueueRing.enQueue, hf, hsz, e1, ha, Heap.store_some x hb hlen]

theorem deQueue_empty (q : QueueRing) (h : Heap T) (he : q.isEmpty = true) :
    q.deQueue h = .throw (.WrongQueueSize "Empty queue") (q, h) := by
  simp [QueueRing.deQueue, he]

theorem deQueue_ok (q : QueueRing) (h : Heap T) {a : Nat} {b : List T} {v : T}
    (he : q.head_ ≠ 0) (hsz : q.size_ ≠ 0) (hh : q.head_ + 1 < SIZE_MOD)
    (ha : q.array_ = some a) (hb : h.block (some a) = some b) (hv : b[q.head_]? = some v) :
    q.deQueue h = .ok v
      (if q.head_ = q.tail_ then { q with head_ := 0, tail_ := 0 }
       else { q with head_ := (q.head_ + 1) % q.size_ }, h) := by
  have e1 : (q.head_ + 1) % SIZE_MOD = q.head_ + 1 := Nat.mod_eq_of_lt hh
  simp [QueueRing.deQueue, QueueRing.isEmpty, he, hsz, e1, ha, Heap.load, hb, hv]
  split <;> simp

/-! ## The invariant holds in every reachable state -/

theorem Heap.alloc_block [Inhabited T] {h h1 : Heap T} {n a : Nat}
    (ha : h.alloc n = some (a, h1)) :
    a = h.blocks.length ∧ h1.block (some a) = some (List.replicate n default) ∧
    n ≤ h.avail ∧
    h1 = { blocks := h.blocks ++ [some (List.replicate n default)], avail := h.avail - n } := by
  unfold Heap.alloc at ha
  split at ha
  · rename_i hn
    simp at ha
    obtain ⟨e1, e2⟩ := ha
    subst e1 e2
    refine ⟨rfl, ?_, hn, rfl⟩
    simp [Heap.block]
  · simp at ha

theorem ctor_inv [Inhabited T] {C : Nat} {h h1 : Heap T} {q : QueueRing}
    (hc : QueueRing.ctor C h = .ok q h1) :
    Inv C (q, h1) ∧ q.head_ = 0 ∧ q.tail_ = 0 ∧ q.array_ = some h.blocks.length := by
  unfold QueueRing.ctor at hc
  split at hc
  · simp at hc
  · rename_i hC
    have hC1 : C ≤ MAX_STACK_SIZE := by omega
    have e1 : (C + 1) % SIZE_MOD = C + 1 := by
      unfold MAX_STACK_SIZE at hC1
      unfold SIZE_MOD
      omega
    rw [e1] at hc
    split at hc
    · simp at hc
    · rename_i p h2 hal
      simp at hc
      obtain ⟨e2, e3⟩ := hc
      subst e2 e3
      obtain ⟨ea, hb, -, -⟩ := Heap.alloc_block hal
      subst ea
      refine ⟨⟨rfl, hC1, ⟨_, _, rfl, hb, by simp⟩, Or.inl ⟨rfl, rfl⟩, ?_⟩, rfl, rfl, rfl⟩
      intro h2 _
      simp
      omega

theorem Inv.bounds {C : Nat} {s : State T} (hi : Inv C s) :
    s.1.size_ < SIZE_MOD ∧ s.1.tail_ + 1 < SIZE_MOD ∧ s.1.head_ + 1 < SIZE_MOD := by
  obtain ⟨h1, h2, -, h4, -⟩ := hi
  unfold MAX_STACK_SIZE at h2
  unfold SIZE_MOD
  omega

theorem Inv.full_iff {C : Nat} {s : State T} (hi : Inv C s) :
    s.1.isFull = true ↔ (s.1.head_ = 0 ∧ s.1.tail_ + 1 = C) ∨ s.1.head_ = s.1.tail_ + 1 := by
  have hb := hi.bounds
  rw [RingQueue.isFull_iff s.1 hb.1 hb.2.1, hi.1]

/-- Under the invariant a call of `enQueue` on a queue that is not full
returns normally, with the state spelled out. -/
theorem Inv.enQueue_returns {C : Nat} {q : QueueRing} {h : Heap T} (hi : Inv C (q, h)) (x : T)
    (hf : q.isFull = false) (hC : C ≠ 0) :
    ∃ a b, q.array_ = some a ∧ h.block (some a) = some b ∧ b.length = C + 1 ∧
      2 ≤ C ∧ (q.tail_ + 1) % C < C ∧
      q.enQueue x h = .ok ()
        ({ q with head_ := if q.head_ = 0 then 1 else q.head_, tail_ := (q.tail_ + 1) % C },
         { h with blocks := h.blocks.set a (some (b.set ((q.tail_ + 1) % C) x)) }) := by
  have hb := hi.bounds
  have hfull := hi.full_iff
  obtain ⟨h1, h2, ⟨a, b, ha, hblk, hlen⟩, h4, h5⟩ := hi
  simp only at h1 ha hblk h4 h5 hb hfull
  have hmod : (q.tail_ + 1) % C < C := Nat.mod_lt _ (by omega)
  have hC2 : 2 ≤ C := by
    by_contra hlt
    have : C = 1 := by omega
    subst this
    have : q.isFull = true := by
      rw [hfull]
      omega
    simp [this] at hf
  refine ⟨a, b, ha, hblk, hlen, hC2, hmod, ?_⟩
  have := RingQueue.enQueue_ok q x h hf (by omega) hb.2.1 ha hblk (by rw [h1]; omega)
  rw [this]
  simp [h1]

/-- Under the invariant a call of `deQueue` on a queue that is not empty
returns the element at `head_`, with the state spelled out. -/
theorem Inv.deQueue_returns {C : Nat} {q : QueueRing} {h : Heap T} (hi : Inv C (q, h))
    (he : q.head_ ≠ 0) :
    ∃ a b v, q.array_ = some a ∧ h.block (some a) = some b ∧ b.length = C + 1 ∧
      b[q.head_]? = some v ∧ 2 ≤ C ∧ q.head_ < C ∧ q.tail_ < C ∧
      q.deQueue h = .ok v
        (if q.head_ = q.tail_ then { q with head_ := 0, tail_ := 0 }
         else { q with head_ := (q.head_ + 1) % C }, h) := by
  have hb := hi.bounds
  obtain ⟨h1, h2, ⟨a, b, ha, hblk, hlen⟩, h4, h5⟩ := hi
  simp only at h1 ha hblk h4 h5 hb
  have hlt : q.head_ < C ∧ q.tail_ < C := by omega
  have hget : q.head_ < b.length := by omega
  refine ⟨a, b, b[q.head_], ha, hblk, hlen, List.getElem?_eq_getElem hget, by omega,
    hlt.1, hlt.2, ?_⟩
  have := RingQueue.deQueue_ok q h he (by omega) hb.2.2 ha hblk (List.getElem?_eq_getElem hget)
  rw [this]
  simp [h1]

theorem inv_call {C : Nat} {s s1 : State T} {c : Call T} {r : Reply T}
    (hi : Inv C s) (hc : call s c = some (r, s1)) : Inv C s1 := by
  obtain ⟨q, h⟩ := s
  cases c with
  | isEmpty =>
    simp [RingQueue.call] at hc
    rw [← hc.2]
    exact hi
  | isFull =>
    simp [RingQueue.call] at hc
    rw [← hc.2]
    exact hi
  | enQueue x =>
    by_cases hf : q.isFull = true
    · simp [RingQueue.call, enQueue_full q x h hf] at hc
      rw [← hc.2]
      exact hi
    · have hf1 : q.isFull = false := by simpa using hf
      by_cases hC : C = 0
      · have hsz : q.size_ = 0 := by rw [hi.1, hC]
        simp [RingQueue.call, QueueRing.enQueue, hf1, hsz] at hc
      · obtain ⟨a, b, ha, hblk, hlen, hC2, hmod, heq⟩ := hi.enQueue_returns x hf1 hC
        simp [RingQueue.call, heq] at hc
        obtain ⟨-, hs1⟩ := hc
        subst hs1
        obtain ⟨h1, h2, -, h4, h5⟩ := hi
        simp only at h1 h4 h5
        refine ⟨h1, h2, ⟨a, b.set ((q.tail_ + 1) % C) x, ha, ?_, ?_⟩, ?_, ?_⟩
        · exact Heap.block_set_same (Heap.block_lt hblk).1 _
        · simp [hlen]
        · right
          simp only
          constructor
          · split <;> omega
          · exact hmod
        · intro _ h0
          simp only at h0
          split at h0 <;> omega
  | deQueue =>
    by_cases he : q.head_ = 0
    · have he1 : q.isEmpty = true := by simp [QueueRing.isEmpty, he]
      simp [RingQueue.call, deQueue_empty q h he1] at hc
      rw [← hc.2]
      exact hi
    · obtain ⟨a, b, v, ha, hblk, hlen, hv, hC2, hh, ht, heq⟩ := hi.deQueue_returns he
      simp [RingQueue.call, heq] at hc
      obtain ⟨-, hs1⟩ := hc
      subst hs1
      obtain ⟨h1, h2, -, h4, h5⟩ := hi
      simp only at h1 h4 h5
      by_cases hht : q.head_ = q.tail_
      · simp only [hht, if_true]
        refine ⟨h1, h2, ⟨a, b, ha, hblk, ?_⟩, Or.inl ⟨rfl, rfl⟩, ?_⟩
        · exact hlen
        · intro _ _
          simp only
          omega
      · simp only [hht, if_false]
        have hmod : (q.head_ + 1) % C < C := Nat.mod_lt _ (by omega)
        refine ⟨h1, h2, ⟨a, b, ha, hblk, ?_⟩, Or.inr ⟨hmod, ht⟩, ?_⟩
        · exact hlen
        · intro _ h0
          simp only at h0 ⊢
          have : q.head_ + 1 = C := by
            by_contra hne
            have : (q.head_ + 1) % C = q.head_ + 1 := Nat.mod_eq_of_lt (by omega)
            omega
          omega

theorem runCalls_cons (s : State T) (c : Call T) (cs : List (Call T)) :
    runCalls s (c :: cs) =
      match call s c with
      | none => none
      | some (r, s1) =>
        match runCalls s1 cs with
        | none => none
        | some (rs, s2) => some (r :: rs, s2) := rfl

theorem runCalls_append (s : State T) (cs1 cs2 : List (Call T)) :
    runCalls s (cs1 ++ cs2) =
      match runCalls s cs1 with
      | none => none
      | some (rs1, s1) =>
        match runCalls s1 cs2 with
        | none => none
        | some (rs2, s2) => some (rs1 ++ rs2, s2) := by
  induction cs1 generalizing s with
  | nil =>
    simp only [List.nil_append, runCalls]
    cases runCalls s cs2 with
    | none => rfl
    | some p => rfl
  | cons c cs ih =>
    rw [List.cons_append, runCalls_cons, runCalls_cons]
    cases hc : call s c with
    | none => rfl
    | some p =>
      obtain ⟨r, s1⟩ := p
      simp only
      rw [ih s1]
      cases runCalls s1 cs with
      | none => rfl
      | some p1 =>
        obtain ⟨rs1, s2⟩ := p1
        simp only
        cases runCalls s2 cs2 with
        | none => rfl
        | some p2 => rfl

theorem inv_runCalls {C : Nat} {s s1 : State T} {cs : List (Call T)} {rs : List (Reply T)}
    (hi : Inv C s) (hr : runCalls s cs = some (rs, s1)) : Inv C s1 := by
  induction cs generalizing s rs with
  | nil =>
    simp [RingQueue.runCalls] at hr
    rw [← hr.2]
    exact hi
  | cons c cs ih =>
    simp only [RingQueue.runCalls] at hr
    cases hc : call s c with
    | none => simp [hc] at hr
    | some p =>
      obtain ⟨r, s2⟩ := p
      rw [hc] at hr
      simp only at hr
      cases hr2 : RingQueue.runCalls s2 cs with
      | none => simp [hr2] at hr
      | some p2 =>
        obtain ⟨rs2, s3⟩ := p2
        rw [hr2] at hr
        simp at hr
        obtain ⟨-, e⟩ := hr
        subst e
        exact ih (inv_call hi hc) hr2

theorem Reachable.inv [Inhabited T] {C : Nat} {s : State T} (hr : Reachable C s) : Inv C s := by
  obtain ⟨h0, cs, rs, hs⟩ := hr
  unfold session at hs
  split at hs
  · rename_i q h1 hc
    exact inv_runCalls (ctor_inv hc).1 hs
  · simp at hs

theorem session_ok [Inhabited T] {C : Nat} {h h1 : Heap T} {q : QueueRing}
    (hc : QueueRing.ctor C h = .ok q h1) (cs : List (Call T)) :
    session C h cs = runCalls (q, h1) cs := by
  simp [session, hc]

theorem ctor_ok [Inhabited T] (C : Nat) (h : Heap T) (hC : C ≤ MAX_STACK_SIZE)
    (hav : C + 1 ≤ h.avail) :
    QueueRing.ctor C h = .ok { array_ := some h.blocks.length, head_ := 0, tail_ := 0, size_ := C }
      { blocks := h.blocks ++ [some (List.replicate (C + 1) default)],
        avail := h.avail - (C + 1) } := by
  have e1 : (C + 1) % SIZE_MOD = C + 1 := by
    unfold MAX_STACK_SIZE at hC
    unfold SIZE_MOD
    omega
  have hn : ¬ C > MAX_STACK_SIZE := by omega
  simp [QueueRing.ctor, hn, e1, Heap.alloc, hav]

/-! ## Failure of `enQueue` and `deQueue` (C4, C5) -/

/-- C4: `enQueue` throws `QueueOverflow`, whose `what()` is the string
"QueueOverflow", exactly when `isFull()` holds at the call; it throws nothing
else, and the state at the throw (members and heap) is the state before the
call. -/
theorem C4_enQueue_overflow_iff_full (q : QueueRing) (x : T) (h : Heap T) :
    ((∃ s, q.enQueue x h = .throw .QueueOverflow s) ↔ q.isFull = true) ∧
    (q.isFull = true → q.enQueue x h = .throw .QueueOverflow (q, h)) ∧
    (∀ e s, q.enQueue x h = .throw e s →
      e = .QueueOverflow ∧ e.what = "QueueOverflow" ∧ s = (q, h)) := by
  have key : ∀ e s, q.enQueue x h = .throw e s →
      q.isFull = true ∧ e = .QueueOverflow ∧ s = (q, h) := by
    intro e s he
    unfold QueueRing.enQueue at he
    split at he
    · rename_i hf
      simp at he
      exact ⟨hf, he.1.symm, he.2.symm⟩
    · simp only at he
      split at he
      · simp at he
      · split at he <;> simp at he
  refine ⟨⟨?_, ?_⟩, enQueue_full q x h, ?_⟩
  · rintro ⟨s, hs⟩
    exact (key _ _ hs).1
  · intro hf
    exact ⟨(q, h), enQueue_full q x h hf⟩
  · intro e s he
    obtain ⟨-, e1, e2⟩ := key e s he
    subst e1
    exact ⟨rfl, rfl, e2⟩

/-- Witness of C4 on a full queue of capacity 3 and on one that is not full. -/
theorem C4_witness :
    QueueRing.enQueue { array_ := some 0, head_ := 1, tail_ := 0, size_ := 3 } (40 : Int)
        { blocks := [some [30, 10, 20, 0]], avail := 0 }
      = .throw .QueueOverflow
          ({ array_ := some 0, head_ := 1, tail_ := 0, size_ := 3 },
           { blocks := [some [30, 10, 20, 0]], avail := 0 }) ∧
    ¬ ∃ s, QueueRing.enQueue { array_ := some 0, head_ := 1, tail_ := 2, size_ := 3 } (30 : Int)
        { blocks := [some [0, 10, 20, 0]], avail := 0 } = .throw .QueueOverflow s :=
  ⟨(C4_enQueue_overflow_iff_full _ _ _).2.1 (by decide),
   fun hs => absurd ((C4_enQueue_overflow_iff_full _ _ _).1.mp hs) (by decide)⟩

/-- C5: `deQueue` throws `WrongQueueSize` with the reason "Empty queue"
exactly when `isEmpty()` holds at the call; it throws nothing else, and the
state at the throw (members and heap) is the state before the call. -/
theorem C5_deQueue_empty_iff_isEmpty (q : QueueRing) (h : Heap T) :
    ((∃ s, q.deQueue h = .throw (.WrongQueueSize "Empty queue") s) ↔ q.isEmpty = true) ∧
    (q.isEmpty = true → q.deQueue h = .throw (.WrongQueueSize "Empty queue") (q, h)) ∧
    (∀ e s, q.deQueue h = .throw e s →
      e = .WrongQueueSize "Empty queue" ∧ e.what = "Empty queue" ∧ s = (q, h)) := by
  have key : ∀ e s, q.deQueue h = .throw e s →
      q.isEmpty = true ∧ e = .WrongQueueSize "Empty queue" ∧ s = (q, h) := by
    intro e s he
    unfold QueueRing.deQueue at he
    split at he
    · rename_i hf
      simp at he
      exact ⟨hf, he.1.symm, he.2.symm⟩
    · split at he
      · simp at he
      · split at he
        · simp at he
        · split at he <;> simp at he
  refine ⟨⟨?_, ?_⟩, deQueue_empty q h, ?_⟩
  · rintro ⟨s, hs⟩
    exact (key _ _ hs).1
  · intro hf
    exact ⟨(q, h), deQueue_empty q h hf⟩
  · intro e s he
    obtain ⟨-, e1, e2⟩ := key e s he
    subst e1
    exact ⟨rfl, rfl, e2⟩

/-- Witness of C5 on an empty queue of capacity 3 and on one that is not
empty. -/
theorem C5_witness :
    QueueRing.deQueue { array_ := some 0, head_ := 0, tail_ := 0, size_ := 3 }
        ({ blocks := [some [0, 10, 20, 0]], avail := 0 } : Heap Int)
      = .throw (.WrongQueueSize "Empty queue")
          ({ array_ := some 0, head_ := 0, tail_ := 0, size_ := 3 },
           { blocks := [some [0, 10, 20, 0]], avail := 0 }) ∧
    ¬ ∃ s, QueueRing.deQueue { array_ := some 0, head_ := 1, tail_ := 2, size_ := 3 }
        ({ blocks := [some [0, 10, 20, 0]], avail := 0 } : Heap Int)
          = .throw (.WrongQueueSize "Empty queue") s :=
  ⟨(C5_deQueue_empty_iff_isEmpty _ _).2.1 (by decide),
   fun hs => absurd ((C5_deQueue_empty_iff_isEmpty _ _).1.mp hs) (by decide)⟩

/-! ## Construction (C8) -/

/-- C8: `QueueRing(size)` throws `WrongQueueSize` with the reason "Maximum
size reached" exactly when `size > 100000000`; when it returns, the new queue
has `size_ = size`, `head_ = 0`, `tail_ = 0` and `isEmpty()` is true; and it
does return when the size passes the check and the allocation of `size + 1`
elements is satisfied. -/
theorem C8_ctor_size_check [Inhabited T] (size : Nat) (h : Heap T) :
    ((∃ h1, (QueueRing.ctor size h : Outcome (Heap T) QueueRing)
        = .throw (.WrongQueueSize "Maximum size reached") h1) ↔ size > 100000000) ∧
    (∀ q h1, QueueRing.ctor size h = .ok q h1 →
      q.size_ = size ∧ q.head_ = 0 ∧ q.tail_ = 0 ∧ q.isEmpty = true) ∧
    (size ≤ 100000000 → size + 1 ≤ h.avail →
      ∃ q h1, (QueueRing.ctor size h : Outcome (Heap T) QueueRing) = .ok q h1) := by
  refine ⟨⟨?_, ?_⟩, ?_, ?_⟩
  · rintro ⟨h1, hc⟩
    by_contra hle
    have hn : ¬ size > MAX_STACK_SIZE := by
      unfold MAX_STACK_SIZE
      omega
    unfold QueueRing.ctor at hc
    rw [if_neg hn] at hc
    split at hc
    · simp at hc
    · simp at hc
  · intro hgt
    have hp : size > MAX_STACK_SIZE := by
      unfold MAX_STACK_SIZE
      omega
    exact ⟨h, by simp [QueueRing.ctor, hp]⟩
  · intro q h1 hc
    have hi := ctor_inv hc
    exact ⟨hi.1.1, hi.2.1, hi.2.2.1, by simp [QueueRing.isEmpty, hi.2.1]⟩
  · intro hle hav
    exact ⟨_, _, ctor_ok size h (by unfold MAX_STACK_SIZE; omega) hav⟩

/-- Witness of C8 at the boundary: size 100000001 is refused, size 100000000
passes the size check, and `QueueRing(3)` is built empty. -/
theorem C8_witness :
    (∃ h1, (QueueRing.ctor 100000001 (Heap.empty Int 4) : Outcome (Heap Int) QueueRing)
        = .throw (.WrongQueueSize "Maximum size reached") h1) ∧
    (¬ ∃ h1, (QueueRing.ctor 100000000 (Heap.empty Int 4) : Outcome (Heap Int) QueueRing)
        = .throw (.WrongQueueSize "Maximum size reached") h1) ∧
    (∃ q h1, (QueueRing.ctor 3 (Heap.empty Int 4) : Outcome (Heap Int) QueueRing) = .ok q h1) :=
  ⟨(C8_ctor_size_check 100000001 _).1.mpr (by decide),
   fun hs => absurd ((C8_ctor_size_check 100000000 _).1.mp hs) (by decide),
   (C8_ctor_size_check 3 (Heap.empty Int 4)).2.2 (by decide) (by decide)⟩

/-! ## Invariants of the reachable states (C6, C10) -/

/-- C6: in every state reached from `QueueRing(C)` with `C > 1` by any
sequence of member calls, `isEmpty()` and `isFull()` are not both true. -/
theorem C6_not_empty_and_full [Inhabited T] (C : Nat) (s : State T) (hC : 1 < C)
    (hr : Reachable C s) : ¬ (s.1.isEmpty = true ∧ s.1.isFull = true) := by
  have hi := hr.inv
  rintro ⟨he, hf⟩
  rw [hi.full_iff] at hf
  have h0 : s.1.head_ = 0 := by simpa [QueueRing.isEmpty] using he
  have h5 := hi.2.2.2.2
  rcases hf with ⟨-, ht⟩ | hh
  · exact h5 (by omega) h0 ht
  · omega

/-- Witness of C6: the state after three `enQueue` on `QueueRing(3)`. -/
theorem C6_witness :
    ¬ (QueueRing.isEmpty { array_ := some 0, head_ := 1, tail_ := 0, size_ := 3 } = true ∧
       QueueRing.isFull { array_ := some 0, head_ := 1, tail_ := 0, size_ := 3 } = true) :=
  C6_not_empty_and_full 3
    (({ array_ := some 0, head_ := 1, tail_ := 0, size_ := 3 },
      { blocks := [some [30, 10, 20, 0]], avail := 0 }) : State Int)
    (by decide)
    ⟨Heap.empty Int 4, [.enQueue 10, .enQueue 20, .enQueue 30], [.done, .done, .done],
      by decide⟩

/-- C10: in every state reached from `QueueRing(C)` by any sequence of member
calls, `0 ≤ head_ ≤ C` and `0 ≤ tail_ ≤ C`, and both indices lie inside the
live block of `C + 1` elements `array_` points to. -/
theorem C10_indices_in_range [Inhabited T] (C : Nat) (s : State T) (hr : Reachable C s) :
    0 ≤ s.1.head_ ∧ s.1.head_ ≤ C ∧ 0 ≤ s.1.tail_ ∧ s.1.tail_ ≤ C ∧
    ∃ b, s.2.block s.1.array_ = some b ∧ b.length = C + 1 ∧
      s.1.head_ < b.length ∧ s.1.tail_ < b.length := by
  obtain ⟨-, -, ⟨a, b, ha, hb, hlen⟩, h4, -⟩ := hr.inv
  refine ⟨by omega, by omega, by omega, by omega, b, ?_, hlen, by omega, by omega⟩
  rw [ha]
  exact hb

/-- Witness of C10: the state after `enQueue(10)`, `enQueue(20)`, `deQueue()`,
`enQueue(30)` on `QueueRing(3)`, where `tail_` has wrapped to 0. -/
theorem C10_witness :
    Reachable 3 wrappedState ∧
    wrappedState.1.head_ ≤ 3 ∧ wrappedState.1.tail_ ≤ 3 :=
  have hr : Reachable 3 wrappedState :=
    ⟨Heap.empty Int 4, [.enQueue 10, .enQueue 20, .deQueue, .enQueue 30],
      [.done, .done, .value 10, .done], by decide⟩
  ⟨hr, (C10_indices_in_range 3 _ hr).2.1, (C10_indices_in_range 3 _ hr).2.2.2.1⟩

/-! ## Move construction and move assignment (C9) -/

/-- C9: the move constructor returns an object with exactly the members of
the source (the same `array_`, hence the same block, and `head_`, `tail_`,
`size_`) and leaves the source with `array_ = nullptr`, `head_ = tail_ =
size_ = 0`; move assignment from another object `src` does the same to
`*this` after releasing the block `*this` owned, which leaves the block of
`src` untouched when the two objects do not share storage; `isEmpty()` is true
on the moved-from object. -/
theorem C9_move_transfers (self src : QueueRing) (h h1 : Heap T)
    (hd : h.delete self.array_ = some h1)
    (hne : self.array_ ≠ src.array_ ∨ src.array_ = none) :
    QueueRing.ctor_move src h
      = .ok src ({ array_ := none, head_ := 0, tail_ := 0, size_ := 0 }, h) ∧
    self.assign_move (.other src) h
      = .ok () (src, .other { array_ := none, head_ := 0, tail_ := 0, size_ := 0 }, h1) ∧
    h1.block src.array_ = h.block src.array_ ∧
    QueueRing.isEmpty { array_ := none, head_ := 0, tail_ := 0, size_ := 0 } = true := by
  refine ⟨rfl, ?_, ?_, rfl⟩
  · simp [QueueRing.assign_move, hd]
  · cases hs : src.array_ with
    | none => simp [Heap.block]
    | some a1 =>
      cases hp : self.array_ with
      | none =>
        rw [hp] at hd
        simp [Heap.delete] at hd
        rw [hd]
      | some a =>
        rw [hp] at hd
        simp only [Heap.delete] at hd
        cases hb : h.block (some a) with
        | none => simp [hb] at hd
        | some b =>
          simp [hb] at hd
          rw [← hd]
          have hne1 : a1 ≠ a := by
            rcases hne with hne | hne
            · intro e
              apply hne
              rw [hp, hs, e]
            · rw [hs] at hne
              cases hne
          have hset : ({ h with blocks := h.blocks.set a none } : Heap T).block (some a1)
              = h.block (some a1) := Heap.block_set_other hne1 none
          simpa [Heap.block] using hset

/-- Witness of C9: two queues of capacity 3 that own the blocks 0 and 1. -/
theorem C9_witness :
    QueueRing.assign_move { array_ := some 0, head_ := 0, tail_ := 0, size_ := 3 }
        (.other { array_ := some 1, head_ := 1, tail_ := 2, size_ := 3 })
        ({ blocks := [some [0, 0, 0, 0], some [0, 10, 20, 0]], avail := 0 } : Heap Int)
      = .ok () ({ array_ := some 1, head_ := 1, tail_ := 2, size_ := 3 },
          .other { array_ := none, head_ := 0, tail_ := 0, size_ := 0 },
          { blocks := [none, some [0, 10, 20, 0]], avail := 4 }) :=
  (C9_move_transfers { array_ := some 0, head_ := 0, tail_ := 0, size_ := 3 }
    { array_ := some 1, head_ := 1, tail_ := 2, size_ := 3 }
    ({ blocks := [some [0, 0, 0, 0], some [0, 10, 20, 0]], avail := 0 } : Heap Int)
    { blocks := [none, some [0, 10, 20, 0]], avail := 4 }
    (by decide) (by decide)).2.1

/-! ## Filling and draining without wrap-around -/

theorem call_enQueue_ok {C : Nat} {q : QueueRing} {h : Heap T} (hi : Inv C (q, h)) (x : T)
    (hf : q.isFull = false) (hC : C ≠ 0) :
    ∃ a b, q.array_ = some a ∧ h.block (some a) = some b ∧ b.length = C + 1 ∧
      call (q, h) (.enQueue x) = some (.done,
        ({ q with head_ := if q.head_ = 0 then 1 else q.head_, tail_ := (q.tail_ + 1) % C },
         { h with blocks := h.blocks.set a (some (b.set ((q.tail_ + 1) % C) x)) })) := by
  obtain ⟨a, b, ha, hblk, hlen, -, -, heq⟩ := hi.enQueue_returns x hf hC
  exact ⟨a, b, ha, hblk, hlen, by simp [call, heq]⟩

/-- Enqueuing the values `vs` one after the other on a queue that is fresh
(`head_ = tail_ = 0`) or has `head_ = 1`, when the tail does not reach the
capacity: all calls return, the tail advances by the number of values, and
the values lie in the slots after the old tail. -/
theorem fill_run {C : Nat} (vs : List T) :
    ∀ (q : QueueRing) (h : Heap T), Inv C (q, h) →
      ((q.head_ = 0 ∧ q.tail_ = 0) ∨ (q.head_ = 1 ∧ 1 ≤ q.tail_)) →
      q.tail_ + vs.length < C →
      ∃ (h1 : Heap T) (b b1 : List T),
        runCalls (q, h) (vs.map .enQueue) = some (List.replicate vs.length .done,
          ({ q with head_ := if vs.length = 0 then q.head_ else 1,
                    tail_ := q.tail_ + vs.length }, h1)) ∧
        h.block q.array_ = some b ∧ h1.block q.array_ = some b1 ∧
        (∀ i, i < vs.length → b1[q.tail_ + 1 + i]? = vs[i]?) ∧
        (∀ j, j ≤ q.tail_ → b1[j]? = b[j]?) := by
  induction vs with
  | nil =>
    intro q h hi _ _
    obtain ⟨a, b, ha, hb, -⟩ := hi.2.2.1
    simp only at ha hb
    refine ⟨h, b, b, ?_, ?_, ?_, ?_, ?_⟩
    · simp [runCalls]
    · rw [ha]; exact hb
    · rw [ha]; exact hb
    · intro i hi
      simp at hi
    · intro j _
      rfl
  | cons x vs ih =>
    intro q h hi hq hlen
    simp only [List.length_cons] at hlen
    have hC : C ≠ 0 := by omega
    have hf : q.isFull = false := by
      have := hi.full_iff
      simp only at this
      cases hfull : q.isFull with
      | false => rfl
      | true =>
        rw [hfull] at this
        have := this.mp rfl
        omega
    obtain ⟨a, b, ha, hblk, hbl, hcall⟩ := call_enQueue_ok hi x hf hC
    have hmod : (q.tail_ + 1) % C = q.tail_ + 1 := Nat.mod_eq_of_lt (by omega)
    rw [hmod] at hcall
    have hhead : (if q.head_ = 0 then 1 else q.head_) = 1 := by
      rcases hq with ⟨h0, -⟩ | ⟨h1, -⟩
      · simp [h0]
      · simp [h1]
    rw [hhead] at hcall
    have hi1 := inv_call hi hcall
    obtain ⟨h2, b2, b3, hrun, hb2, hb3, hvals, hframe⟩ :=
      ih _ _ hi1 (Or.inr ⟨rfl, by simp⟩) (by simp only; omega)
    simp only at hrun hb2 hb3 hvals hframe
    have hb2' : b2 = b.set (q.tail_ + 1) x := by
      rw [ha, Heap.block_set_same (Heap.block_lt hblk).1] at hb2
      simpa using hb2.symm
    subst hb2'
    refine ⟨h2, b, b3, ?_, ?_, hb3, ?_, ?_⟩
    · rw [List.map_cons, runCalls_cons, hcall]
      simp only
      rw [hrun]
      simp [List.replicate_succ]
      omega
    · rw [ha]; exact hblk
    · intro i hil
      cases i with
      | zero =>
        rw [hframe (q.tail_ + 1) (by omega)]
        simp
        rw [List.getElem?_set_self (by omega)]
      | succ i =>
        simp only [List.length_cons] at hil
        have := hvals i (by omega)
        simp only [List.getElem?_cons_succ]
        rw [← this]
        congr 1
        omega
    · intro j hj
      rw [hframe j (by omega)]
      rw [List.getElem?_set_ne (by omega)]

theorem call_deQueue_ok {C : Nat} {q : QueueRing} {h : Heap T} (hi : Inv C (q, h))
    (he : q.head_ ≠ 0) :
    ∃ a b v, q.array_ = some a ∧ h.block (some a) = some b ∧ b[q.head_]? = some v ∧
      q.head_ < C ∧ q.tail_ < C ∧
      call (q, h) .deQueue = some (.value v,
        (if q.head_ = q.tail_ then { q with head_ := 0, tail_ := 0 }
         else { q with head_ := (q.head_ + 1) % C }, h)) := by
  obtain ⟨a, b, v, ha, hblk, -, hv, -, hh, ht, heq⟩ := hi.deQueue_returns he
  exact ⟨a, b, v, ha, hblk, hv, hh, ht, by simp [call, heq]⟩

/-- Draining a queue whose slots `head_ .. tail_` hold the values `ws`, with
`head_ ≤ tail_` (no wrap-around): the calls `deQueue(); isEmpty()` repeated
once per value return the values in order, `isEmpty()` answers false until
the last value is out, and the queue ends with `head_ = tail_ = 0`. -/
theorem drain_run {C : Nat} (ws : List T) :
    ∀ (q : QueueRing) (h : Heap T) (b : List T) (n N : Nat), Inv C (q, h) →
      ws ≠ [] → q.head_ ≠ 0 → q.head_ + ws.length = q.tail_ + 1 →
      h.block q.array_ = some b → (∀ i, i < ws.length → b[q.head_ + i]? = ws[i]?) →
      n + ws.length = N →
      runCalls (q, h) (ws.flatMap fun _ => [.deQueue, .isEmpty]) =
        some ((ws.enumFrom n).flatMap fun p => [.value p.2, .bool (p.1 + 1 == N)],
          ({ q with head_ := 0, tail_ := 0 }, h)) := by
  induction ws with
  | nil =>
    intro q h b n N _ hne
    exact absurd rfl hne
  | cons w ws ih =>
    intro q h b n N hi _ he hlen hblk hvals hN
    simp only [List.length_cons] at hlen hN
    obtain ⟨a, b1, v, ha, hblk1, hv, hh, ht, hcall⟩ := call_deQueue_ok hi he
    have hbb : b1 = b := by
      rw [ha, hblk1] at hblk
      simpa using hblk
    rw [hbb] at hv hblk1
    have hvw : v = w := by
      have := hvals 0 (by simp)
      simp only [Nat.add_zero, List.getElem?_cons_zero] at this
      rw [hv] at this
      simpa using this
    subst hvw
    simp only [List.flatMap_cons, List.enumFrom_cons, List.cons_append, List.nil_append]
    rw [runCalls_cons, hcall]
    simp only
    rw [runCalls_cons]
    simp only [call]
    cases ws with
    | nil =>
      simp only [List.length_nil] at hlen hN
      have hht : q.head_ = q.tail_ := by omega
      simp [hht, runCalls, QueueRing.isEmpty]
      omega
    | cons w1 ws1 =>
      simp only [List.length_cons] at hlen hN
      have hht : q.head_ ≠ q.tail_ := by omega
      have hmod : (q.head_ + 1) % C = q.head_ + 1 := Nat.mod_eq_of_lt (by omega)
      simp only [hht, if_false, hmod] at hcall ⊢
      have hi1 := inv_call hi hcall
      have := ih { q with head_ := q.head_ + 1 } h b n.succ N hi1 (by simp) (by simp)
        (by simp only [List.length_cons]; omega) hblk
        (by
          intro i hil
          have := hvals (i + 1) (by simp only [List.length_cons] at hil ⊢; omega)
          simp only [List.getElem?_cons_succ] at this
          rw [← this]
          congr 1
          show q.head_ + 1 + i = q.head_ + (i + 1)
          omega)
        (by simp only [List.length_cons]; omega)
      rw [this]
      simp [QueueRing.isEmpty]
      omega

theorem overflow_run (q : QueueRing) (h : Heap T) (hf : q.isFull = true) (ws : List T) :
    runCalls (q, h) (ws.map .enQueue) =
      some (List.replicate ws.length (.failed .QueueOverflow), (q, h)) := by
  induction ws with
  | nil => simp [runCalls]
  | cons w ws ih =>
    rw [List.map_cons, runCalls_cons]
    simp only [call, enQueue_full q w h hf]
    rw [ih]
    simp [List.replicate_succ]

/-! ## The capacity bound and the scenario of the specification (C2, C3) -/

/-- C2, as stated, fails on the instance the claim names: on a fresh
`QueueRing(3)` the calls `enQueue(10)`, `enQueue(20)`, `enQueue(30)` all
return, the third does not throw `QueueOverflow`. -/
theorem C2_counterexample :
    (session 3 (Heap.empty Int 4) [.enQueue 10, .enQueue 20, .enQueue 30]).map Prod.fst
      = some [.done, .done, .done] ∧
    (session 3 (Heap.empty Int 4) [.enQueue 10, .enQueue 20, .enQueue 30]).map Prod.fst
      ≠ some [.done, .done, .failed .QueueOverflow] := by
  decide

/-- C2, amended: for every capacity `C ≥ 2`, on a freshly constructed
`QueueRing(C)` consecutive `enQueue` calls with no `deQueue` in between
succeed exactly `C` times: the first `C` calls return and every later one
throws `QueueOverflow`. -/
theorem C2_exactly_C_enqueues [Inhabited T] (C : Nat) (h0 h : Heap T) (q : QueueRing)
    (vs ws : List T) (hC : 2 ≤ C) (hc : QueueRing.ctor C h0 = .ok q h)
    (hk : vs.length = C) :
    ∃ s, runCalls (q, h) ((vs ++ ws).map .enQueue) =
      some (List.replicate C .done ++ List.replicate ws.length (.failed .QueueOverflow), s) := by
  obtain ⟨hi, hh0, ht0, -⟩ := ctor_inv hc
  rcases List.eq_nil_or_concat vs with e | ⟨init, y, e⟩
  · rw [e] at hk
    simp at hk
    omega
  rw [List.concat_eq_append] at e
  subst e
  have hdl : init.length = C - 1 := by
    simp at hk
    omega
  obtain ⟨h1, b, b1, hrun, -, -, -, -⟩ :=
    fill_run init q h hi (Or.inl ⟨hh0, ht0⟩) (by rw [ht0, hdl]; omega)
  rw [hdl, ht0] at hrun
  have hz : ¬ (C - 1 = 0) := by omega
  simp only [hz, if_false, Nat.zero_add] at hrun
  have hi1 := inv_runCalls hi hrun
  have hf1 : QueueRing.isFull { q with head_ := 1, tail_ := C - 1 } = false := by
    have := hi1.full_iff
    simp only at this
    cases hfull : QueueRing.isFull { q with head_ := 1, tail_ := C - 1 } with
    | false => rfl
    | true =>
      rw [hfull] at this
      have := this.mp rfl
      omega
  obtain ⟨a, b2, -, -, -, hcall⟩ := call_enQueue_ok hi1 y hf1 (by omega)
  have hm : (C - 1 + 1) % C = 0 := by
    have : C - 1 + 1 = C := by omega
    rw [this, Nat.mod_self]
  simp only [hm] at hcall
  have hi2 := inv_call hi1 hcall
  have hf2 : QueueRing.isFull { q with head_ := 1, tail_ := 0 } = true := by
    have := hi2.full_iff
    simp only at this
    simp only [one_ne_zero, if_false] at this ⊢
    rw [this]
    simp
  simp only [one_ne_zero, if_false] at hcall
  refine ⟨({ q with head_ := 1, tail_ := 0 },
    { h1 with blocks := h1.blocks.set a (some (b2.set 0 y)) }), ?_⟩
  rw [List.append_assoc, List.map_append, runCalls_append, hrun]
  simp only
  rw [List.map_append, runCalls_append]
  simp only [List.map_cons, List.map_nil]
  rw [runCalls_cons, hcall]
  simp only [runCalls]
  rw [overflow_run _ _ hf2 ws]
  simp only [Option.some.injEq, Prod.mk.injEq, and_true]
  have : C = (C - 1) + 1 := by omega
  conv_rhs => rw [this, List.replicate_succ']
  simp

/-- Witness of the amended C2: capacity 3, values 10, 20, 30, then 40. -/
theorem C2_witness :
    ∃ s, runCalls (({ array_ := some 0, head_ := 0, tail_ := 0, size_ := 3 },
        { blocks := [some [0, 0, 0, 0]], avail := 0 }) : State Int)
        (([10, 20, 30] ++ [40]).map .enQueue) =
      some (List.replicate 3 .done ++ List.replicate [(40 : Int)].length
        (.failed .QueueOverflow), s) :=
  C2_exactly_C_enqueues 3 (Heap.empty Int 4) _ _ [10, 20, 30] [40] (by decide) (by decide)
    (by decide)

/-- C3: for every capacity `C ≥ 2` and every `k` values `v1 .. vk` with
`1 ≤ k ≤ C - 1`, on a freshly constructed `QueueRing(C)`: the `k` calls of
`enQueue` return; then `k` times `deQueue(); isEmpty()` returns `v1 .. vk` in
this order, with `isEmpty()` false after each of the first `k - 1` and true
after the last; and one more `deQueue()` throws `WrongQueueSize` with the
reason "Empty queue". -/
theorem C3_fill_then_drain [Inhabited T] (C : Nat) (h0 h : Heap T) (q : QueueRing)
    (vs : List T) (hC : 2 ≤ C) (hc : QueueRing.ctor C h0 = .ok q h)
    (hk1 : 1 ≤ vs.length) (hk2 : vs.length ≤ C - 1) :
    ∃ h1, runCalls (q, h)
        (vs.map .enQueue ++ (vs.flatMap fun _ => [.deQueue, .isEmpty]) ++ [.deQueue]) =
      some (List.replicate vs.length .done ++
          (vs.enum.flatMap fun p => [.value p.2, .bool (p.1 + 1 == vs.length)]) ++
          [.failed (.WrongQueueSize "Empty queue")],
        (q, h1)) := by
  obtain ⟨hi, hh0, ht0, -⟩ := ctor_inv hc
  have hne : vs ≠ [] := by
    intro e
    rw [e] at hk1
    simp at hk1
  obtain ⟨h1, b, b1, hrun, -, hb1, hvals, -⟩ :=
    fill_run vs q h hi (Or.inl ⟨hh0, ht0⟩) (by rw [ht0]; omega)
  have hz : ¬ (vs.length = 0) := by omega
  simp only [hz, if_false, ht0, Nat.zero_add] at hrun hvals
  have hi1 := inv_runCalls hi hrun
  have hdrain := drain_run vs { q with head_ := 1, tail_ := vs.length } h1 b1 0 vs.length hi1
    hne (by simp) (by simp only; omega) hb1
    (fun i hil => hvals i hil) (by omega)
  simp only at hdrain
  have hq : ({ q with head_ := 0, tail_ := 0 } : QueueRing) = q := by
    cases q
    simp only at hh0 ht0
    subst hh0 ht0
    rfl
  rw [hq] at hdrain
  have hlast : runCalls (q, h1) [.deQueue] =
      some ([.failed (.WrongQueueSize "Empty queue")], (q, h1)) := by
    have he : q.isEmpty = true := by simp [QueueRing.isEmpty, hh0]
    simp [runCalls, call, deQueue_empty q h1 he]
  refine ⟨h1, ?_⟩
  rw [List.append_assoc, runCalls_append, hrun]
  simp only
  rw [runCalls_append, hdrain]
  simp only
  rw [hlast]
  simp [List.enum]

/-- Witness of C3: the scenario of the specification, capacity 3 and the
values 10, 20. -/
theorem C3_witness :
    ∃ h1, runCalls (({ array_ := some 0, head_ := 0, tail_ := 0, size_ := 3 },
        { blocks := [some [0, 0, 0, 0]], avail := 0 }) : State Int)
        ([.enQueue 10, .enQueue 20] ++ [.deQueue, .isEmpty, .deQueue, .isEmpty] ++ [.deQueue]) =
      some ([.done, .done] ++
          [.value 10, .bool false, .value 20, .bool true] ++
          [.failed (.WrongQueueSize "Empty queue")],
        (({ array_ := some 0, head_ := 0, tail_ := 0, size_ := 3 } : QueueRing), h1)) :=
  C3_fill_then_drain 3 (Heap.empty Int 4) _ _ [10, 20] (by decide) (by decide)
    (by decide) (by decide)

/-! ## First in, first out (C1) -/

/-- C1 fails on the code.  On a fresh `QueueRing<int>(2)` the calls
`enQueue(10)`, `enQueue(20)`, `deQueue()`, `enQueue(30)`, `deQueue()` all
return, none throws, and the second `deQueue()` returns 30, the value of the
third `enQueue`, not 20: the first `deQueue` moves `head_` to
`(1 + 1) % 2 = 0`, the value that means empty, and 20 is lost in slot 0. -/
theorem C1_second_dequeue_skips_an_element :
    (session 2 (Heap.empty Int 3)
        [.enQueue 10, .enQueue 20, .deQueue, .enQueue 30, .deQueue]).map Prod.fst
      = some [.done, .done, .value 10, .done, .value 30] ∧
    (session 2 (Heap.empty Int 3) [.enQueue 10, .enQueue 20, .deQueue, .isEmpty]).map Prod.fst
      = some [.done, .done, .value 10, .bool true] := by
  decide

/-! ## Calls on one queue leave the blocks of other queues alone -/

theorem enQueue_frame {q q1 : QueueRing} {h h1 : Heap T} {x : T} {e : Unit}
    (hc : q.enQueue x h = .ok e (q1, h1)) :
    q1.array_ = q.array_ ∧ q1.size_ = q.size_ ∧
      ∀ a, some a ≠ q.array_ → h1.block (some a) = h.block (some a) := by
  unfold QueueRing.enQueue at hc
  split at hc
  · simp at hc
  · simp only at hc
    split at hc
    · simp at hc
    · split at hc
      · simp at hc
      · rename_i h2 hst
        simp at hc
        obtain ⟨e1, e2⟩ := hc
        subst e1 e2
        refine ⟨rfl, rfl, ?_⟩
        intro a hne
        obtain ⟨a1, b, hp, -, -, hh⟩ := Heap.store_inv hst
        rw [hh]
        apply Heap.block_set_other
        intro e
        apply hne
        rw [hp, e]

theorem deQueue_frame {q q1 : QueueRing} {h h1 : Heap T} {v : T}
    (hc : q.deQueue h = .ok v (q1, h1)) :
    q1.array_ = q.array_ ∧ q1.size_ = q.size_ ∧ h1 = h := by
  unfold QueueRing.deQueue at hc
  split at hc
  · simp at hc
  · split at hc
    · simp at hc
    · split at hc
      · simp at hc
        obtain ⟨-, e1, e2⟩ := hc
        subst e1 e2
        exact ⟨rfl, rfl, rfl⟩
      · split at hc
        · simp at hc
        · simp at hc
          obtain ⟨-, e1, e2⟩ := hc
          subst e1 e2
          exact ⟨rfl, rfl, rfl⟩

theorem enQueue_throw {q : QueueRing} {h : Heap T} {x : T} {e : Exn} {s : State T}
    (hc : q.enQueue x h = .throw e s) : s = (q, h) := by
  unfold QueueRing.enQueue at hc
  split at hc
  · simp at hc
    exact hc.2.symm
  · simp only at hc
    split at hc
    · simp at hc
    · split at hc <;> simp at hc

theorem deQueue_throw {q : QueueRing} {h : Heap T} {e : Exn} {s : State T}
    (hc : q.deQueue h = .throw e s) : s = (q, h) := by
  unfold QueueRing.deQueue at hc
  split at hc
  · simp at hc
    exact hc.2.symm
  · split at hc
    · simp at hc
    · split at hc
      · simp at hc
      · split at hc <;> simp at hc

theorem call_frame {s s1 : State T} {c : Call T} {r : Reply T}
    (hc : call s c = some (r, s1)) :
    s1.1.array_ = s.1.array_ ∧
      ∀ a, some a ≠ s.1.array_ → s1.2.block (some a) = s.2.block (some a) := by
  obtain ⟨q, h⟩ := s
  obtain ⟨q1, h1⟩ := s1
  cases c with
  | isEmpty =>
    simp [call] at hc
    obtain ⟨-, e1, e2⟩ := hc
    subst e1 e2
    exact ⟨rfl, fun _ _ => rfl⟩
  | isFull =>
    simp [call] at hc
    obtain ⟨-, e1, e2⟩ := hc
    subst e1 e2
    exact ⟨rfl, fun _ _ => rfl⟩
  | enQueue x =>
    simp only [call] at hc
    cases hr : q.enQueue x h with
    | ub => simp [hr] at hc
    | throw e s =>
      have := enQueue_throw hr
      subst this
      simp [hr] at hc
      obtain ⟨-, e1, e2⟩ := hc
      subst e1 e2
      exact ⟨rfl, fun _ _ => rfl⟩
    | ok u s =>
      simp [hr] at hc
      obtain ⟨-, e1⟩ := hc
      subst e1
      have := enQueue_frame hr
      exact ⟨this.1, this.2.2⟩
  | deQueue =>
    simp only [call] at hc
    cases hr : q.deQueue h with
    | ub => simp [hr] at hc
    | throw e s =>
      have := deQueue_throw hr
      subst this
      simp [hr] at hc
      obtain ⟨-, e1, e2⟩ := hc
      subst e1 e2
      exact ⟨rfl, fun _ _ => rfl⟩
    | ok u s =>
      simp [hr] at hc
      obtain ⟨-, e1⟩ := hc
      subst e1
      have := deQueue_frame hr
      refine ⟨this.1, ?_⟩
      intro a _
      simp only
      rw [this.2.2]

theorem runCalls_frame {cs : List (Call T)} :
    ∀ {s s1 : State T} {rs : List (Reply T)}, runCalls s cs = some (rs, s1) →
      s1.1.array_ = s.1.array_ ∧
      ∀ a, some a ≠ s.1.array_ → s1.2.block (some a) = s.2.block (some a) := by
  induction cs with
  | nil =>
    intro s s1 rs hr
    simp [runCalls] at hr
    rw [← hr.2]
    exact ⟨rfl, fun _ _ => rfl⟩
  | cons c cs ih =>
    intro s s1 rs hr
    rw [runCalls_cons] at hr
    cases hc : call s c with
    | none => simp [hc] at hr
    | some p =>
      obtain ⟨r, s2⟩ := p
      rw [hc] at hr
      simp only at hr
      cases hr2 : runCalls s2 cs with
      | none => simp [hr2] at hr
      | some p2 =>
        obtain ⟨rs2, s3⟩ := p2
        rw [hr2] at hr
        simp at hr
        obtain ⟨-, e⟩ := hr
        subst e
        have f1 := call_frame hc
        have f2 := ih hr2
        refine ⟨by rw [f2.1, f1.1], ?_⟩
        intro a hne
        rw [f2.2 a (by rw [f1.1]; exact hne), f1.2 a hne]

/-! ## The copy constructor -/

theorem succ_mod_inj {C i t : Nat} (hi : i < C) (ht : t < C)
    (h : (i + 1) % C = (t + 1) % C) : i = t := by
  rcases Nat.lt_or_ge (i + 1) C with h1 | h1 <;> rcases Nat.lt_or_ge (t + 1) C with h2 | h2
  · rw [Nat.mod_eq_of_lt h1, Nat.mod_eq_of_lt h2] at h
    omega
  · have e : t + 1 = C := by omega
    rw [Nat.mod_eq_of_lt h1, e, Nat.mod_self] at h
    omega
  · have e : i + 1 = C := by omega
    rw [Nat.mod_eq_of_lt h2, e, Nat.mod_self] at h
    omega
  · omega

theorem deQueueReplies_zero (s : State T) : deQueueReplies s 0 = some [] := by
  simp [deQueueReplies, runCalls]

theorem deQueueReplies_succ (s : State T) (n : Nat) :
    deQueueReplies s (n + 1) =
      match call s .deQueue with
      | none => none
      | some (r, s1) => (deQueueReplies s1 n).map (r :: ·) := by
  simp only [deQueueReplies, List.replicate_succ, runCalls_cons]
  cases call s .deQueue with
  | none => rfl
  | some p =>
    obtain ⟨r, s1⟩ := p
    simp only
    cases runCalls s1 (List.replicate n .deQueue) with
    | none => rfl
    | some p2 => rfl

theorem deQueueReplies_empty (q : QueueRing) (h : Heap T) (he : q.head_ = 0) (n : Nat) :
    deQueueReplies (q, h) n =
      some (List.replicate n (.failed (.WrongQueueSize "Empty queue"))) := by
  induction n with
  | zero => simp [deQueueReplies_zero]
  | succ n ih =>
    have hem : q.isEmpty = true := by simp [QueueRing.isEmpty, he]
    rw [deQueueReplies_succ]
    simp only [call, deQueue_empty q h hem]
    rw [ih]
    simp [List.replicate_succ]

theorem call_deQueue_general (q : QueueRing) (h : Heap T) {a : Nat} {b : List T} {v : T}
    (he : q.head_ ≠ 0) (hsz : q.size_ ≠ 0) (hh : q.head_ + 1 < SIZE_MOD)
    (ha : q.array_ = some a) (hb : h.block (some a) = some b) (hv : b[q.head_]? = some v) :
    call (q, h) .deQueue = some (.value v,
      (if q.head_ = q.tail_ then { q with head_ := 0, tail_ := 0 }
       else { q with head_ := (q.head_ + 1) % q.size_ }, h)) := by
  simp [call, deQueue_ok q h he hsz hh ha hb hv]

theorem copyLoop_succ (src : QueueRing) (dst : Ptr) (fuel i : Nat) (h : Heap T) :
    copyLoop src dst (fuel + 1) i h =
      match h.load src.array_ i with
      | none => some .ub
      | some v =>
        match h.store dst i v with
        | none => some .ub
        | some h1 =>
          if src.size_ = 0 then some .ub
          else
            if (((i + 1) % SIZE_MOD) % src.size_ != ((src.tail_ + 1) % SIZE_MOD) % src.size_) then
              match copyLoop src dst fuel (((i + 1) % SIZE_MOD) % src.size_) h1 with
              | some (.ok is h2) => some (.ok (i :: is) h2)
              | r => r
            else some (.ok [i] h1) := rfl

theorem call_deQueue_last (q : QueueRing) (h : Heap T) {a : Nat} {b : List T} {v : T}
    (he : q.head_ ≠ 0) (hsz : q.size_ ≠ 0) (hh : q.head_ + 1 < SIZE_MOD)
    (ha : q.array_ = some a) (hb : h.block (some a) = some b) (hv : b[q.head_]? = some v)
    (hht : q.head_ = q.tail_) :
    call (q, h) .deQueue = some (.value v, ({ q with head_ := 0, tail_ := 0 }, h)) := by
  rw [call_deQueue_general q h he hsz hh ha hb hv, if_pos hht]

theorem call_deQueue_next (q : QueueRing) (h : Heap T) {a : Nat} {b : List T} {v : T}
    (he : q.head_ ≠ 0) (hsz : q.size_ ≠ 0) (hh : q.head_ + 1 < SIZE_MOD)
    (ha : q.array_ = some a) (hb : h.block (some a) = some b) (hv : b[q.head_]? = some v)
    (hht : q.head_ ≠ q.tail_) :
    call (q, h) .deQueue =
      some (.value v, ({ q with head_ := (q.head_ + 1) % q.size_ }, h)) := by
  rw [call_deQueue_general q h he hsz hh ha hb hv, if_neg hht]

/-- The copy loop started at an index `i < size_` of a source with `tail_ < size_`
returns when the fuel exceeds the cyclic distance from `i` to `tail_`.  It
leaves every block but the destination as it was, keeps the destination
equal to the source wherever it already was, and afterwards `n` successive
`deQueue` calls from head `i` give the same replies on the source and on
the copy. -/
theorem copyLoop_sim (src : QueueRing) (a p : Nat) (b : List T)
    (hCmax : src.size_ ≤ MAX_STACK_SIZE) (ht : src.tail_ < src.size_)
    (ha : src.array_ = some a) (hpa : p ≠ a) (hbl : b.length = src.size_ + 1) :
    ∀ (fuel i : Nat) (hh : Heap T) (d : List T),
      i < src.size_ → (if i ≤ src.tail_ then src.tail_ - i else src.tail_ + src.size_ - i) < fuel →
      hh.block (some a) = some b → hh.block (some p) = some d → d.length = src.size_ + 1 →
      ∃ is hh2 d2, copyLoop src (some p) fuel i hh = some (.ok is hh2) ∧
        hh2.block (some a) = some b ∧ hh2.block (some p) = some d2 ∧ d2.length = src.size_ + 1 ∧
        (∀ a1, a1 ≠ p → hh2.block (some a1) = hh.block (some a1)) ∧
        (∀ j : Nat, d[j]? = b[j]? → d2[j]? = b[j]?) ∧
        d2[i]? = b[i]? ∧
        ∀ n, deQueueReplies ({ src with head_ := i }, hh2) n =
            deQueueReplies
              ({ array_ := some p, head_ := i, tail_ := src.tail_, size_ := src.size_ }, hh2) n ∧
          (deQueueReplies ({ src with head_ := i }, hh2) n).isSome = true := by
  intro fuel
  induction fuel with
  | zero =>
    intro i hh d _ hd
    omega
  | succ f ih =>
    intro i hh d hi hd hba hbp hdl
    have hmax : src.size_ < SIZE_MOD := by
      unfold MAX_STACK_SIZE at hCmax
      unfold SIZE_MOD
      omega
    have hib : i < b.length := by omega
    have hid : i < d.length := by omega
    have hload : hh.load src.array_ i = some b[i] := by
      simp [Heap.load, ha, hba, List.getElem?_eq_getElem hib]
    have hstore := Heap.store_some (b[i]) hbp hid
    have hC0 : src.size_ ≠ 0 := by omega
    have e1 : (i + 1) % SIZE_MOD = i + 1 := Nat.mod_eq_of_lt (by omega)
    have e2 : (src.tail_ + 1) % SIZE_MOD = src.tail_ + 1 := Nat.mod_eq_of_lt (by omega)
    have hp := (Heap.block_lt hbp).1
    -- the heap after the body of this iteration
    have hba1 : ({ hh with blocks := hh.blocks.set p (some (d.set i b[i])) } : Heap T).block
        (some a) = some b := by
      rw [Heap.block_set_other (Ne.symm hpa)]
      exact hba
    have hbp1 : ({ hh with blocks := hh.blocks.set p (some (d.set i b[i])) } : Heap T).block
        (some p) = some (d.set i b[i]) := Heap.block_set_same hp _
    have hfr1 : ∀ a1, a1 ≠ p →
        ({ hh with blocks := hh.blocks.set p (some (d.set i b[i])) } : Heap T).block (some a1)
          = hh.block (some a1) := fun a1 hne => Heap.block_set_other hne _
    have hkeep1 : ∀ j : Nat, d[j]? = b[j]? → (d.set i b[i])[j]? = b[j]? := by
      intro j hj
      by_cases hji : i = j
      · subst hji
        rw [List.getElem?_set_self (by omega), List.getElem?_eq_getElem hib]
      · rw [List.getElem?_set_ne hji]
        exact hj
    have hdi1 : (d.set i b[i])[i]? = b[i]? := by
      rw [List.getElem?_set_self (by omega), List.getElem?_eq_getElem hib]
    rw [copyLoop_succ, hload]
    simp only
    rw [hstore]
    simp only [hC0, if_false, e1, e2]
    by_cases hit : i = src.tail_
    · -- last iteration
      have hexit : ((i + 1) % src.size_ != (src.tail_ + 1) % src.size_) = false := by
        rw [hit]
        simp
      rw [hexit]
      simp only [Bool.false_eq_true, if_false]
      refine ⟨[i], _, d.set i b[i], rfl, hba1, hbp1, by simp [hdl], hfr1, hkeep1, hdi1, ?_⟩
      intro n
      cases n with
      | zero => simp [deQueueReplies_zero]
      | succ n =>
        by_cases hi0 : i = 0
        · rw [deQueueReplies_empty _ _ (by simp [hi0]), deQueueReplies_empty _ _ (by simp [hi0])]
          simp
        · have c1 := call_deQueue_last
            ({ src with head_ := i }) _ hi0 hC0 (by simp only; omega) ha hba1
            (List.getElem?_eq_getElem hib) hit
          have c2 := call_deQueue_last
            ({ array_ := some p, head_ := i, tail_ := src.tail_, size_ := src.size_ }) _
            hi0 hC0 (by simp only; omega) rfl hbp1
            (by simp only; rw [hdi1, List.getElem?_eq_getElem hib]) hit
          rw [deQueueReplies_succ, deQueueReplies_succ, c1, c2]
          simp only
          rw [deQueueReplies_empty _ _ rfl, deQueueReplies_empty _ _ rfl]
          simp
    · -- the loop goes on
      have hcont : ((i + 1) % src.size_ != (src.tail_ + 1) % src.size_) = true := by
        simp only [bne_iff_ne, ne_eq]
        intro e
        exact hit (succ_mod_inj hi ht e)
      rw [hcont]
      simp only [if_true]
      have hi1 : (i + 1) % src.size_ < src.size_ := Nat.mod_lt _ (by omega)
      have hd1 : (if (i + 1) % src.size_ ≤ src.tail_ then src.tail_ - (i + 1) % src.size_
          else src.tail_ + src.size_ - (i + 1) % src.size_) < f := by
        rcases Nat.lt_or_ge (i + 1) src.size_ with h1 | h1
        · rw [Nat.mod_eq_of_lt h1]
          split at hd <;> split <;> omega
        · have e : i + 1 = src.size_ := by omega
          rw [e, Nat.mod_self]
          split at hd <;> simp <;> omega
      obtain ⟨is, hh2, d2, hrun, hba2, hbp2, hdl2, hfr2, hkeep2, hdi2, hsim⟩ :=
        ih ((i + 1) % src.size_) _ (d.set i b[i]) hi1 hd1 hba1 hbp1 (by simp [hdl])
      rw [hrun]
      simp only
      have hdi : d2[i]? = b[i]? := hkeep2 i hdi1
      refine ⟨i :: is, hh2, d2, rfl, hba2, hbp2, hdl2, ?_, ?_, hdi, ?_⟩
      · intro a1 hne
        rw [hfr2 a1 hne, hfr1 a1 hne]
      · intro j hj
        exact hkeep2 j (hkeep1 j hj)
      · intro n
        cases n with
        | zero => simp [deQueueReplies_zero]
        | succ n =>
          by_cases hi0 : i = 0
          · rw [deQueueReplies_empty _ _ (by simp [hi0]),
              deQueueReplies_empty _ _ (by simp [hi0])]
            simp
          · have c1 := call_deQueue_next
              ({ src with head_ := i }) hh2 hi0 hC0 (by simp only; omega) ha hba2
              (List.getElem?_eq_getElem hib) hit
            have c2 := call_deQueue_next
              ({ array_ := some p, head_ := i, tail_ := src.tail_, size_ := src.size_ }) hh2
              hi0 hC0 (by simp only; omega) rfl hbp2
              (by simp only; rw [hdi, List.getElem?_eq_getElem hib]) hit
            rw [deQueueReplies_succ, deQueueReplies_succ, c1, c2]
            simp only
            obtain ⟨hs1, hs2⟩ := hsim n
            rw [← hs1]
            refine ⟨rfl, ?_⟩
            cases hx : deQueueReplies
              ({ src with head_ := (i + 1) % src.size_ }, hh2) n with
            | none => simp [hx] at hs2
            | some l => simp

theorem Heap.block_append {h : Heap T} {a : Nat} {b : List T} (x : Option (List T)) (n : Nat)
    (hb : h.block (some a) = some b) :
    ({ blocks := h.blocks ++ [x], avail := n } : Heap T).block (some a) = some b := by
  obtain ⟨hlt, hget⟩ := Heap.block_lt hb
  simp [Heap.block, List.getElem?_append_left hlt, hget]

/-- C7: for every state of a queue reached from `QueueRing(C)`, `C ≥ 1`, by
member calls, the copy constructor (given fuel for `C` iterations and room
for `C + 1` elements) returns a queue with the same `head_`, `tail_` and
`size_` and a block of its own; the block of the source is what it was; for
every `n`, `n` successive `deQueue` calls give the same replies (values and
failures) on the source and on the copy; and no sequence of calls on the
copy changes the block of the source. -/
theorem C7_copy_round_trip [Inhabited T] (C : Nat) (q : QueueRing) (h : Heap T) (fuel : Nat)
    (hC : 1 ≤ C) (hr : Reachable C (q, h)) (hfuel : C ≤ fuel) (hav : C + 1 ≤ h.avail) :
    ∃ (c : QueueRing) (h1 : Heap T),
      QueueRing.ctor_copy fuel q h = some (.ok c h1) ∧
      c.head_ = q.head_ ∧ c.tail_ = q.tail_ ∧ c.size_ = q.size_ ∧ c.array_ ≠ q.array_ ∧
      h1.block q.array_ = h.block q.array_ ∧
      (∀ n, ∃ rs, deQueueReplies (q, h1) n = some rs ∧ deQueueReplies (c, h1) n = some rs) ∧
      (∀ cs rs c2 h2, runCalls (c, h1) cs = some (rs, (c2, h2)) →
        h2.block q.array_ = h.block q.array_) := by
  obtain ⟨hsz, hmax, ⟨a, b, ha, hb, hbl⟩, h4, -⟩ := hr.inv
  simp only at hsz ha hb h4
  subst hsz
  have hlt : q.head_ < q.size_ ∧ q.tail_ < q.size_ := by omega
  have e1 : (q.size_ + 1) % SIZE_MOD = q.size_ + 1 := by
    unfold MAX_STACK_SIZE at hmax
    unfold SIZE_MOD
    omega
  have halloc : h.alloc ((q.size_ + 1) % SIZE_MOD) = some (h.blocks.length,
      { blocks := h.blocks ++ [some (List.replicate (q.size_ + 1) default)],
        avail := h.avail - (q.size_ + 1) }) := by
    simp [Heap.alloc, e1, hav]
  have hpa : h.blocks.length ≠ a := by
    have := (Heap.block_lt hb).1
    omega
  have hba := Heap.block_append (some (List.replicate (q.size_ + 1) default))
    (h.avail - (q.size_ + 1)) hb
  have hbp : Heap.block
      { blocks := h.blocks ++ [some (List.replicate (q.size_ + 1) default)],
        avail := h.avail - (q.size_ + 1) } (some h.blocks.length)
        = some (List.replicate (q.size_ + 1) (default : T)) := by
    simp [Heap.block]
  obtain ⟨is, hh2, d2, hrun, hba2, hbp2, hdl2, -, -, -, hsim⟩ :=
    copyLoop_sim q a h.blocks.length b hmax hlt.2 ha hpa hbl fuel q.head_ _ _ hlt.1
      (by split <;> omega) hba hbp (by simp)
  refine ⟨{ array_ := some h.blocks.length, head_ := q.head_, tail_ := q.tail_,
            size_ := q.size_ }, hh2, ?_, rfl, rfl, rfl, ?_, ?_, ?_, ?_⟩
  · simp [QueueRing.ctor_copy, halloc, hrun]
  · rw [ha]
    simp only [ne_eq, Option.some.injEq]
    exact hpa
  · rw [ha, hba2, hb]
  · intro n
    obtain ⟨hs1, hs2⟩ := hsim n
    have hq : ({ q with head_ := q.head_ } : QueueRing) = q := rfl
    rw [hq] at hs1 hs2
    cases hx : deQueueReplies (q, hh2) n with
    | none => simp [hx] at hs2
    | some rs => exact ⟨rs, rfl, by rw [← hs1, hx]⟩
  · intro cs rs c2 h2 hcs
    have hf := (runCalls_frame hcs).2 a (by
      simp only [ne_eq, Option.some.injEq]
      exact Ne.symm hpa)
    simp only at hf
    rw [ha, hf, hba2, hb]

/-- Witness of C7: the copy of a `QueueRing<int>(3)` with `head_ = 2`,
`tail_ = 0` whose elements 20 and 30 lie in the slots 2 and 0. -/
theorem C7_witness :
    ∃ (c : QueueRing) (h1 : Heap Int),
      QueueRing.ctor_copy 3 wrappedStateRoomy.1 wrappedStateRoomy.2 = some (.ok c h1) ∧
      c.head_ = 2 ∧ c.tail_ = 0 ∧ c.size_ = 3 ∧ c.array_ ≠ some 0 ∧
      h1.block (some 0) = some [30, 10, 20, 0] ∧
      (∀ n, ∃ rs, deQueueReplies (wrappedStateRoomy.1, h1) n = some rs ∧
        deQueueReplies (c, h1) n = some rs) ∧
      (∀ cs rs c2 h2, runCalls (c, h1) cs = some (rs, (c2, h2)) →
        h2.block (some 0) = some [30, 10, 20, 0]) :=
  C7_copy_round_trip 3 wrappedStateRoomy.1 wrappedStateRoomy.2 3 (by decide)
    ⟨Heap.empty Int 8, [.enQueue 10, .enQueue 20, .deQueue, .enQueue 30],
      [.done, .done, .value 10, .done], by decide⟩
    (by decide) (by decide)

/-! ## The predicates on reachable states (C11) -/

/-- C11: in every state reached from `QueueRing(C)`, `C ≥ 1`, by member
calls, `isFull()` is true exactly when `head_ == 0` and `tail_ == C - 1`, or
`head_ == (tail_ + 1) mod (C + 1)`; and `isEmpty()` is true exactly when
`head_ == 0`.  (In these states `tail_ < C`, so `tail_ + 1` is its own
remainder modulo `C + 1`.) -/
theorem C11_predicates_on_reachable [Inhabited T] (C : Nat) (s : State T) (hC : 1 ≤ C)
    (hr : Reachable C s) :
    (s.1.isFull = true ↔
      (s.1.head_ = 0 ∧ s.1.tail_ = C - 1) ∨ s.1.head_ = (s.1.tail_ + 1) % (C + 1)) ∧
    (s.1.isEmpty = true ↔ s.1.head_ = 0) := by
  have hi := hr.inv
  have h4 := hi.2.2.2.1
  have ht : s.1.tail_ < C := by omega
  have hm : (s.1.tail_ + 1) % (C + 1) = s.1.tail_ + 1 := Nat.mod_eq_of_lt (by omega)
  refine ⟨?_, by simp [QueueRing.isEmpty]⟩
  rw [hi.full_iff, hm]
  constructor
  · rintro (⟨h0, h1⟩ | h1)
    · left
      exact ⟨h0, by omega⟩
    · right
      exact h1
  · rintro (⟨h0, h1⟩ | h1)
    · left
      exact ⟨h0, by omega⟩
    · right
      exact h1

/-- Witness of C11: the full state after three `enQueue` on `QueueRing(3)`,
where `head_ = 1 = (0 + 1) mod 4`. -/
theorem C11_witness :
    (QueueRing.isFull { array_ := some 0, head_ := 1, tail_ := 0, size_ := 3 } = true ↔
      ((1 : Nat) = 0 ∧ (0 : Nat) = 3 - 1) ∨ (1 : Nat) = (0 + 1) % (3 + 1)) ∧
    (QueueRing.isEmpty { array_ := some 0, head_ := 1, tail_ := 0, size_ := 3 } = true ↔
      (1 : Nat) = 0) :=
  C11_predicates_on_reachable 3
    (({ array_ := some 0, head_ := 1, tail_ := 0, size_ := 3 },
      { blocks := [some [30, 10, 20, 0]], avail := 0 }) : State Int)
    (by decide)
    ⟨Heap.empty Int 4, [.enQueue 10, .enQueue 20, .enQueue 30], [.done, .done, .done],
      by decide⟩

/-! ## Function `swap` (C16) -/

/-- C16: `swap(a, b)` leaves `a` with the former `array_`, `head_`, `tail_`,
`size_` of `b` and `b` with those of `a`, for all pairs of objects; applying
it twice gives back both objects. -/
theorem C16_swap_exchanges (a b : QueueRing) :
    (swap a b).1 = b ∧ (swap a b).2 = a ∧
    (swap a b).1.array_ = b.array_ ∧ (swap a b).1.head_ = b.head_ ∧
    (swap a b).1.tail_ = b.tail_ ∧ (swap a b).1.size_ = b.size_ ∧
    (swap a b).2.array_ = a.array_ ∧ (swap a b).2.head_ = a.head_ ∧
    (swap a b).2.tail_ = a.tail_ ∧ (swap a b).2.size_ = a.size_ ∧
    swap (swap a b).1 (swap a b).2 = (a, b) :=
  ⟨rfl, rfl, rfl, rfl, rfl, rfl, rfl, rfl, rfl, rfl, rfl⟩

/-- Witness of C16 on two queues of capacities 3 and 2. -/
theorem C16_witness :
    swap { array_ := some 0, head_ := 1, tail_ := 2, size_ := 3 }
        { array_ := some 1, head_ := 0, tail_ := 0, size_ := 2 }
      = ({ array_ := some 1, head_ := 0, tail_ := 0, size_ := 2 },
         { array_ := some 0, head_ := 1, tail_ := 2, size_ := 3 }) :=
  Prod.ext (C16_swap_exchanges _ _).1 (C16_swap_exchanges _ _).2.1

/-! ## No undefined behaviour for capacity at least 1 (C17) -/

theorem inv_call_total {C : Nat} {s : State T} (hi : Inv C s) (hC : 1 ≤ C) (c : Call T) :
    ∃ r s1, call s c = some (r, s1) := by
  obtain ⟨q, h⟩ := s
  cases c with
  | isEmpty => exact ⟨_, _, rfl⟩
  | isFull => exact ⟨_, _, rfl⟩
  | enQueue x =>
    by_cases hf : q.isFull = true
    · exact ⟨.failed .QueueOverflow, (q, h), by simp [call, enQueue_full q x h hf]⟩
    · have hf1 : q.isFull = false := by simpa using hf
      obtain ⟨a, b, -, -, -, hcall⟩ := call_enQueue_ok hi x hf1 (by omega)
      exact ⟨_, _, hcall⟩
  | deQueue =>
    by_cases he : q.head_ = 0
    · have he1 : q.isEmpty = true := by simp [QueueRing.isEmpty, he]
      exact ⟨.failed (.WrongQueueSize "Empty queue"), (q, h),
        by simp [call, deQueue_empty q h he1]⟩
    · obtain ⟨a, b, v, -, -, -, -, -, hcall⟩ := call_deQueue_ok hi he
      exact ⟨_, _, hcall⟩

theorem inv_runCalls_total {C : Nat} (hC : 1 ≤ C) (cs : List (Call T)) :
    ∀ (s : State T), Inv C s → ∃ rs s1, runCalls s cs = some (rs, s1) := by
  induction cs with
  | nil =>
    intro s _
    exact ⟨[], s, rfl⟩
  | cons c cs ih =>
    intro s hi
    obtain ⟨r, s1, hc⟩ := inv_call_total hi hC c
    obtain ⟨rs, s2, hr⟩ := ih s1 (inv_call hi hc)
    exact ⟨r :: rs, s2, by rw [runCalls_cons, hc]; simp only; rw [hr]⟩

/-- C17: for every queue constructed with capacity `C ≥ 1` and every sequence
of member calls, no call runs into undefined behaviour: every store
`array_[tail_]` of `enQueue` and every load `array_[head_]` of `deQueue` is
inside the block of `C + 1` elements and no remainder is taken modulo zero.
In the embedding these are the branches `Outcome.ub`, on which `runCalls`
is `none`; the run is `some` and its final state is in the invariant, with
both indices inside the block. -/
theorem C17_no_undefined_behaviour [Inhabited T] (C : Nat) (h0 h : Heap T) (q : QueueRing)
    (cs : List (Call T)) (hC : 1 ≤ C) (hc : QueueRing.ctor C h0 = .ok q h) :
    ∃ rs s, runCalls (q, h) cs = some (rs, s) ∧
      s.1.size_ ≠ 0 ∧
      ∃ b, s.2.block s.1.array_ = some b ∧ b.length = C + 1 ∧
        s.1.head_ < b.length ∧ (s.1.tail_ + 1) % s.1.size_ < b.length := by
  have hi := (ctor_inv hc).1
  obtain ⟨rs, s, hr⟩ := inv_runCalls_total hC cs (q, h) hi
  have hi1 := inv_runCalls hi hr
  obtain ⟨hsz, -, ⟨a, b, ha, hb, hbl⟩, h4, -⟩ := hi1
  refine ⟨rs, s, hr, by omega, b, by rw [ha]; exact hb, hbl, by omega, ?_⟩
  have : (s.1.tail_ + 1) % s.1.size_ < s.1.size_ := Nat.mod_lt _ (by omega)
  omega

/-- Witness of C17: a run on `QueueRing<int>(2)` that wraps both indices. -/
theorem C17_witness :
    ∃ rs s, runCalls (({ array_ := some 0, head_ := 0, tail_ := 0, size_ := 2 },
        { blocks := [some [0, 0, 0]], avail := 0 }) : State Int)
        [.enQueue 10, .enQueue 20, .deQueue, .enQueue 30, .deQueue] = some (rs, s) ∧
      s.1.size_ ≠ 0 ∧
      ∃ b, s.2.block s.1.array_ = some b ∧ b.length = 2 + 1 ∧
        s.1.head_ < b.length ∧ (s.1.tail_ + 1) % s.1.size_ < b.length :=
  C17_no_undefined_behaviour 2 (Heap.empty Int 3) _ _ _ (by decide) (by decide)

/-! ## Capacity 1 (C20) -/

/-- C20: a queue constructed with capacity 1 is empty and full at once in
every state it reaches.  Whatever the sequence of member calls, every
`enQueue` throws `QueueOverflow`, every `deQueue` throws `WrongQueueSize`
with the reason "Empty queue", `isEmpty()` and `isFull()` answer true, and
the final state is the state after construction, `head_ = 0`, `tail_ = 0`,
heap included. -/
theorem C20_capacity_one_is_stuck [Inhabited T] (h0 h : Heap T) (q : QueueRing)
    (cs : List (Call T)) (hc : QueueRing.ctor 1 h0 = .ok q h) :
    runCalls (q, h) cs = some (cs.map (fun c => match c with
        | .enQueue _ => Reply.failed .QueueOverflow
        | .deQueue => Reply.failed (.WrongQueueSize "Empty queue")
        | .isEmpty => Reply.bool true
        | .isFull => Reply.bool true), (q, h)) ∧
    q.head_ = 0 ∧ q.tail_ = 0 ∧ q.isEmpty = true ∧ q.isFull = true ∧
    (∀ x : T, q.enQueue x h = .throw .QueueOverflow (q, h)) ∧
    q.deQueue h = .throw (.WrongQueueSize "Empty queue") (q, h) := by
  obtain ⟨hi, hh0, ht0, -⟩ := ctor_inv hc
  have he : q.isEmpty = true := by simp [QueueRing.isEmpty, hh0]
  have hf : q.isFull = true := by
    have := hi.full_iff
    simp only at this
    rw [this]
    left
    exact ⟨hh0, by omega⟩
  refine ⟨?_, hh0, ht0, he, hf, fun x => enQueue_full q x h hf, deQueue_empty q h he⟩
  induction cs with
  | nil => rfl
  | cons c cs ih =>
    rw [runCalls_cons]
    cases c with
    | enQueue x => simp [call, enQueue_full q x h hf, ih]
    | deQueue => simp [call, deQueue_empty q h he, ih]
    | isEmpty => simp [call, he, ih]
    | isFull => simp [call, hf, ih]

/-- Witness of C20: four calls on a fresh `QueueRing<int>(1)`. -/
theorem C20_witness :
    runCalls (({ array_ := some 0, head_ := 0, tail_ := 0, size_ := 1 },
        { blocks := [some [0, 0]], avail := 0 }) : State Int)
        [.isEmpty, .isFull, .enQueue 10, .deQueue]
      = some ([.bool true, .bool true, .failed .QueueOverflow,
          .failed (.WrongQueueSize "Empty queue")],
        ({ array_ := some 0, head_ := 0, tail_ := 0, size_ := 1 },
         { blocks := [some [0, 0]], avail := 0 })) :=
  (C20_capacity_one_is_stuck (Heap.empty Int 2) _ _ [.isEmpty, .isFull, .enQueue 10, .deQueue]
    (by decide)).1

/-! ## Filling a fresh queue to its capacity (C19) -/

theorem not_full_of_head_one {C : Nat} {q : QueueRing} {h : Heap T} (hi : Inv C (q, h))
    (hh : q.head_ = 1) (ht : 1 ≤ q.tail_) : q.isFull = false := by
  have := hi.full_iff
  simp only at this
  cases hfull : q.isFull with
  | false => rfl
  | true =>
    rw [hfull] at this
    have := this.mp rfl
    omega

/-- Enqueuing `C` values on a fresh `QueueRing(C)`, `C ≥ 2`: all calls
return and the queue ends full with `head_ = 1`, `tail_ = 0`. -/
theorem fill_to_full {C : Nat} (q : QueueRing) (h : Heap T) (vs : List T) (hC : 2 ≤ C)
    (hi : Inv C (q, h)) (hh0 : q.head_ = 0) (ht0 : q.tail_ = 0) (hk : vs.length = C) :
    ∃ h1, runCalls (q, h) (vs.map .enQueue) =
        some (List.replicate C .done, ({ q with head_ := 1, tail_ := 0 }, h1)) ∧
      Inv C ({ q with head_ := 1, tail_ := 0 }, h1) ∧
      QueueRing.isFull { q with head_ := 1, tail_ := 0 } = true := by
  rcases List.eq_nil_or_concat vs with e | ⟨init, y, e⟩
  · rw [e] at hk
    simp at hk
    omega
  rw [List.concat_eq_append] at e
  subst e
  have hdl : init.length = C - 1 := by
    simp at hk
    omega
  obtain ⟨h1, b, b1, hrun, -, -, -, -⟩ :=
    fill_run init q h hi (Or.inl ⟨hh0, ht0⟩) (by rw [ht0, hdl]; omega)
  rw [hdl, ht0] at hrun
  have hz : ¬ (C - 1 = 0) := by omega
  simp only [hz, if_false, Nat.zero_add] at hrun
  have hi1 := inv_runCalls hi hrun
  have hf1 : QueueRing.isFull { q with head_ := 1, tail_ := C - 1 } = false :=
    not_full_of_head_one hi1 rfl (by simp only; omega)
  obtain ⟨a, b2, -, -, -, hcall⟩ := call_enQueue_ok hi1 y hf1 (by omega)
  have hm : (C - 1 + 1) % C = 0 := by
    have : C - 1 + 1 = C := by omega
    rw [this, Nat.mod_self]
  simp only [hm, one_ne_zero, if_false] at hcall
  have hi2 := inv_call hi1 hcall
  have hf2 : QueueRing.isFull { q with head_ := 1, tail_ := 0 } = true := by
    have := hi2.full_iff
    simp only at this
    rw [this]
    simp
  refine ⟨{ h1 with blocks := h1.blocks.set a (some (b2.set 0 y)) }, ?_, hi2, hf2⟩
  rw [List.map_append, runCalls_append, hrun]
  simp only [List.map_cons, List.map_nil]
  rw [runCalls_cons, hcall]
  simp only [runCalls]
  simp only [Option.some.injEq, Prod.mk.injEq, and_true]
  have : C = (C - 1) + 1 := by omega
  conv_rhs => rw [this, List.replicate_succ']

/-- C19: for every capacity `C ≥ 2`, a freshly constructed `QueueRing(C)`
accepts exactly `C` consecutive `enQueue` calls.  After the first `k` of
them, `1 ≤ k < C`, the state is `head_ = 1`, `tail_ = k` and `isFull()` is
false; after the `C`-th the state is `head_ = 1`, `tail_ = 0` and `isFull()`
is true, and the next `enQueue` throws `QueueOverflow`. -/
theorem C19_fill_to_capacity [Inhabited T] (C : Nat) (h0 h : Heap T) (q : QueueRing)
    (vs : List T) (x : T) (hC : 2 ≤ C) (hc : QueueRing.ctor C h0 = .ok q h)
    (hk : vs.length = C) :
    (∀ k, 1 ≤ k → k < C → ∃ h1,
      runCalls (q, h) ((vs.take k).map .enQueue) =
        some (List.replicate k .done, ({ q with head_ := 1, tail_ := k }, h1)) ∧
      QueueRing.isFull { q with head_ := 1, tail_ := k } = false) ∧
    (∃ h1,
      runCalls (q, h) (vs.map .enQueue) =
        some (List.replicate C .done, ({ q with head_ := 1, tail_ := 0 }, h1)) ∧
      QueueRing.isFull { q with head_ := 1, tail_ := 0 } = true ∧
      runCalls (q, h) ((vs ++ [x]).map .enQueue) =
        some (List.replicate C .done ++ [.failed .QueueOverflow],
          ({ q with head_ := 1, tail_ := 0 }, h1))) := by
  obtain ⟨hi, hh0, ht0, -⟩ := ctor_inv hc
  constructor
  · intro k hk1 hk2
    have hlen : (vs.take k).length = k := by
      rw [List.length_take]
      omega
    obtain ⟨h1, b, b1, hrun, -, -, -, -⟩ :=
      fill_run (vs.take k) q h hi (Or.inl ⟨hh0, ht0⟩) (by rw [ht0, hlen]; omega)
    rw [hlen, ht0] at hrun
    have hz : ¬ (k = 0) := by omega
    simp only [hz, if_false, Nat.zero_add] at hrun
    exact ⟨h1, hrun, not_full_of_head_one (inv_runCalls hi hrun) rfl hk1⟩
  · obtain ⟨h1, hrun, -, hf⟩ := fill_to_full q h vs hC hi hh0 ht0 hk
    refine ⟨h1, hrun, hf, ?_⟩
    rw [List.map_append, runCalls_append, hrun]
    simp [runCalls, call, enQueue_full _ x h1 hf]

/-- Witness of C19: capacity 3, values 10, 20, 30, then 40. -/
theorem C19_witness :
    ∃ h1,
      runCalls (({ array_ := some 0, head_ := 0, tail_ := 0, size_ := 3 },
          { blocks := [some [0, 0, 0, 0]], avail := 0 }) : State Int)
          ([10, 20, 30].map .enQueue) =
        some (List.replicate 3 .done,
          ({ array_ := some 0, head_ := 1, tail_ := 0, size_ := 3 }, h1)) ∧
      QueueRing.isFull { array_ := some 0, head_ := 1, tail_ := 0, size_ := 3 } = true ∧
      runCalls (({ array_ := some 0, head_ := 0, tail_ := 0, size_ := 3 },
          { blocks := [some [0, 0, 0, 0]], avail := 0 }) : State Int)
          (([10, 20, 30] ++ [40]).map .enQueue) =
        some (List.replicate 3 .done ++ [.failed .QueueOverflow],
          ({ array_ := some 0, head_ := 1, tail_ := 0, size_ := 3 }, h1)) :=
  (C19_fill_to_capacity 3 (Heap.empty Int 4) _ _ [10, 20, 30] 40 (by decide) (by decide)
    (by decide)).2

/-! ## Effect of a successful `enQueue` and `deQueue` (C12, C13) -/

theorem Valid.size_bounds {s : State T} (hv : Valid s) :
    s.1.size_ < SIZE_MOD ∧ s.1.tail_ + 1 < SIZE_MOD ∧ s.1.head_ + 1 < SIZE_MOD := by
  obtain ⟨h1, h2, h3, -⟩ := hv
  unfold MAX_STACK_SIZE at h1
  unfold SIZE_MOD
  omega

theorem Valid.array {s : State T} (hv : Valid s) :
    ∃ a b, s.1.array_ = some a ∧ s.2.block (some a) = some b ∧ b.length = s.1.size_ + 1 := by
  obtain ⟨-, -, -, b, hb, hbl⟩ := hv
  cases ha : s.1.array_ with
  | none =>
    rw [ha] at hb
    simp [Heap.block] at hb
  | some a =>
    rw [ha] at hb
    exact ⟨a, b, rfl, hb, hbl⟩

theorem Inv.valid {C : Nat} {s : State T} (hi : Inv C s) : Valid s := by
  obtain ⟨h1, h2, ⟨a, b, ha, hb, hbl⟩, h4, -⟩ := hi
  refine ⟨by omega, by omega, by omega, b, ?_, by omega⟩
  rw [ha]
  exact hb

/-- C12: for every well-formed queue with capacity `size_ ≥ 1` on which
`isFull()` is false, `enQueue(x)` returns, and in the state after it `head_`
is 1 if it was 0 and is otherwise unchanged, `tail_` is the old
`(tail_ + 1) mod size_`, the slot `array_[tail_]` holds `x`, every other slot
of the block is unchanged, `size_` and `array_` are unchanged and so is every
other block of the heap. -/
theorem C12_enQueue_effect (q : QueueRing) (x : T) (h : Heap T) (hC : 1 ≤ q.size_)
    (hv : Valid (q, h)) (hf : q.isFull = false) :
    ∃ q1 h1 b b1, q.enQueue x h = .ok () (q1, h1) ∧
      h.block q.array_ = some b ∧ h1.block q1.array_ = some b1 ∧
      q1.head_ = (if q.head_ = 0 then 1 else q.head_) ∧
      q1.tail_ = (q.tail_ + 1) % q.size_ ∧
      q1.size_ = q.size_ ∧ q1.array_ = q.array_ ∧
      b1[q1.tail_]? = some x ∧
      (∀ j : Nat, j ≠ q1.tail_ → b1[j]? = b[j]?) ∧ b1.length = b.length ∧
      (∀ a, some a ≠ q.array_ → h1.block (some a) = h.block (some a)) := by
  have hb := hv.size_bounds
  obtain ⟨a, b, ha, hblk, hbl⟩ := hv.array
  simp only at hb ha hblk hbl
  have hmod : (q.tail_ + 1) % q.size_ < q.size_ := Nat.mod_lt _ (by omega)
  have hok := enQueue_ok q x h hf (by omega) hb.2.1 ha hblk (by omega)
  have hfr := enQueue_frame hok
  refine ⟨_, _, b, b.set ((q.tail_ + 1) % q.size_) x, hok, by rw [ha]; exact hblk, ?_, rfl, rfl,
    rfl, rfl, ?_, ?_, by simp, hfr.2.2⟩
  · simp only
    rw [ha]
    exact Heap.block_set_same (Heap.block_lt hblk).1 _
  · simp only
    rw [List.getElem?_set_self (by omega)]
  · intro j hj
    simp only at hj
    rw [List.getElem?_set_ne (Ne.symm hj)]

/-- Witness of C12: `enQueue(30)` on a `QueueRing<int>(3)` with `head_ = 2`,
`tail_ = 2`; the tail wraps to slot 0. -/
theorem C12_witness :
    ∃ q1 h1 b b1,
      QueueRing.enQueue { array_ := some 0, head_ := 2, tail_ := 2, size_ := 3 } (30 : Int)
        { blocks := [some [0, 10, 20, 0]], avail := 0 } = .ok () (q1, h1) ∧
      Heap.block ({ blocks := [some [0, 10, 20, 0]], avail := 0 } : Heap Int) (some 0) = some b ∧
      h1.block q1.array_ = some b1 ∧
      q1.head_ = 2 ∧ q1.tail_ = 0 ∧ q1.size_ = 3 ∧ q1.array_ = some 0 ∧
      b1[q1.tail_]? = some 30 ∧
      (∀ j : Nat, j ≠ q1.tail_ → b1[j]? = b[j]?) ∧ b1.length = b.length ∧
      (∀ a, some a ≠ some 0 → h1.block (some a)
        = Heap.block ({ blocks := [some [0, 10, 20, 0]], avail := 0 } : Heap Int) (some a)) :=
  C12_enQueue_effect { array_ := some 0, head_ := 2, tail_ := 2, size_ := 3 } (30 : Int)
    { blocks := [some [0, 10, 20, 0]], avail := 0 } (by decide)
    ⟨by decide, by decide, by decide, [0, 10, 20, 0], by decide, by decide⟩ (by decide)

/-- C13: for every well-formed queue with capacity `size_ ≥ 1` on which
`isEmpty()` is false, `deQueue()` returns the value stored at `array_[head_]`;
afterwards, if `head_ == tail_` held before the call then `head_ = tail_ = 0`,
otherwise `head_` is the old `(head_ + 1) mod size_` and `tail_` is unchanged;
in both cases `array_`, `size_` and the whole heap are unchanged. -/
theorem C13_deQueue_effect (q : QueueRing) (h : Heap T) (hC : 1 ≤ q.size_)
    (hv : Valid (q, h)) (he : q.isEmpty = false) :
    ∃ b v q1, h.block q.array_ = some b ∧ b[q.head_]? = some v ∧
      q.deQueue h = .ok v (q1, h) ∧
      (q.head_ = q.tail_ → q1.head_ = 0 ∧ q1.tail_ = 0) ∧
      (q.head_ ≠ q.tail_ → q1.head_ = (q.head_ + 1) % q.size_ ∧ q1.tail_ = q.tail_) ∧
      q1.size_ = q.size_ ∧ q1.array_ = q.array_ := by
  have hb := hv.size_bounds
  obtain ⟨a, b, ha, hblk, hbl⟩ := hv.array
  have hh := hv.2.1
  simp only at hb ha hblk hbl hh
  have he0 : q.head_ ≠ 0 := by simpa [QueueRing.isEmpty] using he
  have hget : q.head_ < b.length := by omega
  have hok := deQueue_ok q h he0 (by omega) hb.2.2 ha hblk (List.getElem?_eq_getElem hget)
  refine ⟨b, b[q.head_], _, by rw [ha]; exact hblk, List.getElem?_eq_getElem hget, hok,
    ?_, ?_, ?_, ?_⟩
  · intro e
    simp [e]
  · intro e
    simp [e]
  · split <;> rfl
  · split <;> rfl

/-- Witness of C13: `deQueue()` on a `QueueRing<int>(3)` with `head_ = 2`,
`tail_ = 0` returns 20 and wraps `head_` to `(2 + 1) mod 3 = 0`. -/
theorem C13_witness :
    ∃ b v q1,
      Heap.block ({ blocks := [some [30, 10, 20, 0]], avail := 0 } : Heap Int) (some 0)
        = some b ∧
      b[2]? = some v ∧
      QueueRing.deQueue { array_ := some 0, head_ := 2, tail_ := 0, size_ := 3 }
        ({ blocks := [some [30, 10, 20, 0]], avail := 0 } : Heap Int)
        = .ok v (q1, { blocks := [some [30, 10, 20, 0]], avail := 0 }) ∧
      ((2 : Nat) = 0 → q1.head_ = 0 ∧ q1.tail_ = 0) ∧
      ((2 : Nat) ≠ 0 → q1.head_ = (2 + 1) % 3 ∧ q1.tail_ = 0) ∧
      q1.size_ = 3 ∧ q1.array_ = some 0 :=
  C13_deQueue_effect { array_ := some 0, head_ := 2, tail_ := 0, size_ := 3 }
    ({ blocks := [some [30, 10, 20, 0]], avail := 0 } : Heap Int) (by decide)
    ⟨by decide, by decide, by decide, [30, 10, 20, 0], by decide, by decide⟩ (by decide)

/-! ## The copy loop, iteration by iteration (C14, C18) -/

/-- One iteration of the copy loop at an index inside both blocks: the body
copies `src.array_[i]` to slot `i` of the destination, then the loop exits
or goes on at `(i + 1) mod size_`. -/
theorem copyLoop_body (src : QueueRing) (a p : Nat) (b d : List T) (v : T) (fuel i : Nat)
    (hh : Heap T) (hC : src.size_ ≠ 0) (hi : i + 1 < SIZE_MOD) (ht : src.tail_ + 1 < SIZE_MOD)
    (ha : src.array_ = some a) (hba : hh.block (some a) = some b)
    (hbp : hh.block (some p) = some d) (hv : b[i]? = some v) (hid : i < d.length) :
    copyLoop src (some p) (fuel + 1) i hh =
      if (i + 1) % src.size_ ≠ (src.tail_ + 1) % src.size_ then
        match copyLoop src (some p) fuel ((i + 1) % src.size_)
            { hh with blocks := hh.blocks.set p (some (d.set i v)) } with
        | some (.ok is h2) => some (.ok (i :: is) h2)
        | r => r
      else some (.ok [i] { hh with blocks := hh.blocks.set p (some (d.set i v)) }) := by
  have hload : hh.load src.array_ i = some v := by
    simp [Heap.load, ha, hba, hv]
  have e1 : (i + 1) % SIZE_MOD = i + 1 := Nat.mod_eq_of_lt hi
  have e2 : (src.tail_ + 1) % SIZE_MOD = src.tail_ + 1 := Nat.mod_eq_of_lt ht
  rw [copyLoop_succ, hload]
  simp only
  rw [Heap.store_some v hbp hid]
  simp only [hC, if_false, e1, e2, bne_iff_ne, ne_eq, ite_not]

/-- C14: copy-constructing from a well-formed source with `head_ == tail_ ==
0` and capacity `C ≥ 1` runs the body of the copy loop exactly once, at
index 0: the new block is the freshly allocated one with slot 0 overwritten
by the source's slot 0, every other slot as allocated.  The new queue has
`head_ = 0`, `tail_ = 0`, `size_ = C`, and `isEmpty()` is true on it. -/
theorem C14_copy_of_empty [Inhabited T] (q : QueueRing) (h : Heap T) (fuel : Nat)
    (hC : 1 ≤ q.size_) (hv : Valid (q, h)) (hh0 : q.head_ = 0) (ht0 : q.tail_ = 0)
    (hfuel : 1 ≤ fuel) (hav : q.size_ + 1 ≤ h.avail) :
    ∃ p h1 h2 b v, h.alloc ((q.size_ + 1) % SIZE_MOD) = some (p, h1) ∧
      h.block q.array_ = some b ∧ b[0]? = some v ∧
      copyLoop q (some p) fuel q.head_ h1 = some (.ok [0] h2) ∧
      h2.block (some p) = some ((List.replicate (q.size_ + 1) default).set 0 v) ∧
      h2.block q.array_ = some b ∧
      QueueRing.ctor_copy fuel q h =
        some (.ok { array_ := some p, head_ := 0, tail_ := 0, size_ := q.size_ } h2) ∧
      QueueRing.isEmpty { array_ := some p, head_ := 0, tail_ := 0, size_ := q.size_ } = true := by
  have hb := hv.size_bounds
  obtain ⟨a, b, ha, hblk, hbl⟩ := hv.array
  simp only at hb ha hblk hbl
  have hmax := hv.1
  simp only at hmax
  have e1 : (q.size_ + 1) % SIZE_MOD = q.size_ + 1 := Nat.mod_eq_of_lt (by
    unfold MAX_STACK_SIZE at hmax
    unfold SIZE_MOD
    omega)
  have halloc : h.alloc ((q.size_ + 1) % SIZE_MOD) = some (h.blocks.length,
      { blocks := h.blocks ++ [some (List.replicate (q.size_ + 1) default)],
        avail := h.avail - (q.size_ + 1) }) := by
    simp [Heap.alloc, e1, hav]
  have hpa : h.blocks.length ≠ a := by
    have := (Heap.block_lt hblk).1
    omega
  have hba := Heap.block_append (some (List.replicate (q.size_ + 1) default))
    (h.avail - (q.size_ + 1)) hblk
  have hbp : Heap.block
      { blocks := h.blocks ++ [some (List.replicate (q.size_ + 1) default)],
        avail := h.avail - (q.size_ + 1) } (some h.blocks.length)
        = some (List.replicate (q.size_ + 1) (default : T)) := by
    simp [Heap.block]
  have hget : (0 : Nat) < b.length := by omega
  obtain ⟨f, hf⟩ : ∃ f, fuel = f + 1 := ⟨fuel - 1, by omega⟩
  subst hf
  have hstep := copyLoop_body q a h.blocks.length b _ b[0] f 0 _ (by omega) (by
      unfold SIZE_MOD
      omega) hb.2.1 ha hba hbp
    (List.getElem?_eq_getElem hget) (by simp)
  rw [ht0] at hstep
  simp only [ne_eq, not_true_eq_false, if_false] at hstep
  have hp2 : h.blocks.length < (h.blocks ++
      [some (List.replicate (q.size_ + 1) (default : T))]).length := by simp
  refine ⟨h.blocks.length, _, _, b, b[0], halloc, by rw [ha]; exact hblk,
    List.getElem?_eq_getElem hget, by rw [hh0]; exact hstep, ?_, ?_, ?_, rfl⟩
  · exact @Heap.block_set_same T
      { blocks := h.blocks ++ [some (List.replicate (q.size_ + 1) default)],
        avail := h.avail - (q.size_ + 1) } h.blocks.length hp2 _
  · rw [ha]
    exact (@Heap.block_set_other T
      { blocks := h.blocks ++ [some (List.replicate (q.size_ + 1) default)],
        avail := h.avail - (q.size_ + 1) } h.blocks.length a (Ne.symm hpa) _).trans hba
  · simp only [QueueRing.ctor_copy, halloc, hh0, hstep, ht0]

/-- Witness of C14: the copy of a fresh `QueueRing<int>(3)`. -/
theorem C14_witness :
    ∃ p h1 h2 b v,
      Heap.alloc ({ blocks := [some [7, 8, 9, 6]], avail := 4 } : Heap Int) ((3 + 1) % SIZE_MOD)
        = some (p, h1) ∧
      Heap.block ({ blocks := [some [7, 8, 9, 6]], avail := 4 } : Heap Int) (some 0) = some b ∧
      b[0]? = some v ∧
      copyLoop { array_ := some 0, head_ := 0, tail_ := 0, size_ := 3 } (some p) 1 0 h1
        = some (.ok [0] h2) ∧
      h2.block (some p) = some ((List.replicate (3 + 1) default).set 0 v) ∧
      h2.block (some 0) = some b ∧
      QueueRing.ctor_copy 1 { array_ := some 0, head_ := 0, tail_ := 0, size_ := 3 }
          ({ blocks := [some [7, 8, 9, 6]], avail := 4 } : Heap Int) =
        some (.ok { array_ := some p, head_ := 0, tail_ := 0, size_ := 3 } h2) ∧
      QueueRing.isEmpty { array_ := some p, head_ := 0, tail_ := 0, size_ := 3 } = true :=
  C14_copy_of_empty { array_ := some 0, head_ := 0, tail_ := 0, size_ := 3 }
    ({ blocks := [some [7, 8, 9, 6]], avail := 4 } : Heap Int) 1 (by decide)
    ⟨by decide, by decide, by decide, [7, 8, 9, 6], by decide, by decide⟩ rfl rfl
    (by decide) (by decide)

/-- The copy loop started at an index `i < size_`, where `t` is the exit
value `(tail_ + 1) mod size_`: it returns after exactly `t - i` iterations
when `i < t` and `t + size_ - i` iterations otherwise, given that much fuel,
and every index it visits is below `size_`. -/
theorem copyLoop_walk (src : QueueRing) (a p t : Nat) (b : List T)
    (hC : 1 ≤ src.size_) (hCmax : src.size_ ≤ MAX_STACK_SIZE) (htl : src.tail_ ≤ src.size_)
    (htt : (src.tail_ + 1) % src.size_ = t)
    (ha : src.array_ = some a) (hpa : p ≠ a) (hbl : b.length = src.size_ + 1) :
    ∀ (fuel i : Nat) (hh : Heap T) (d : List T),
      i < src.size_ → (if i < t then t - i else t + src.size_ - i) ≤ fuel →
      hh.block (some a) = some b → hh.block (some p) = some d → d.length = src.size_ + 1 →
      ∃ is hh2, copyLoop src (some p) fuel i hh = some (.ok is hh2) ∧
        is.length = (if i < t then t - i else t + src.size_ - i) ∧
        (∀ j ∈ is, j < src.size_) := by
  have htC : t < src.size_ := by
    rw [← htt]
    exact Nat.mod_lt _ (by omega)
  have hmax : src.size_ + 1 < SIZE_MOD := by
    unfold MAX_STACK_SIZE at hCmax
    unfold SIZE_MOD
    omega
  intro fuel
  induction fuel with
  | zero =>
    intro i hh d hi hd
    split at hd <;> omega
  | succ f ih =>
    intro i hh d hi hd hba hbp hdl
    have hib : i < b.length := by omega
    have hstep := copyLoop_body src a p b d b[i] f i hh (by omega) (by omega) (by omega) ha hba
      hbp (List.getElem?_eq_getElem hib) (by omega)
    rw [htt] at hstep
    have hp := (Heap.block_lt hbp).1
    have hba1 : ({ hh with blocks := hh.blocks.set p (some (d.set i b[i])) } : Heap T).block
        (some a) = some b := by
      rw [Heap.block_set_other (Ne.symm hpa)]
      exact hba
    have hbp1 : ({ hh with blocks := hh.blocks.set p (some (d.set i b[i])) } : Heap T).block
        (some p) = some (d.set i b[i]) := Heap.block_set_same hp _
    have hnx : (i + 1) % src.size_ < src.size_ := Nat.mod_lt _ (by omega)
    by_cases hx : (i + 1) % src.size_ = t
    · -- the loop exits after this iteration
      simp only [hx, ne_eq, not_true_eq_false, if_false] at hstep
      refine ⟨[i], _, hstep, ?_, ?_⟩
      · rcases Nat.lt_or_ge (i + 1) src.size_ with h1 | h1
        · rw [Nat.mod_eq_of_lt h1] at hx
          simp only [List.length_singleton]
          split <;> omega
        · have e : i + 1 = src.size_ := by omega
          rw [e, Nat.mod_self] at hx
          simp only [List.length_singleton]
          split <;> omega
      · intro j hj
        simp only [List.mem_singleton] at hj
        omega
    · -- the loop goes on at the next index
      simp only [ne_eq, hx, not_false_eq_true, if_true] at hstep
      have hd1 : (if (i + 1) % src.size_ < t then t - (i + 1) % src.size_
          else t + src.size_ - (i + 1) % src.size_) + 1
          = (if i < t then t - i else t + src.size_ - i) := by
        rcases Nat.lt_or_ge (i + 1) src.size_ with h1 | h1
        · rw [Nat.mod_eq_of_lt h1] at hx ⊢
          split <;> split <;> omega
        · have e : i + 1 = src.size_ := by omega
          rw [e, Nat.mod_self] at hx ⊢
          split <;> split <;> omega
      obtain ⟨is, hh2, hrun, hlen, hmem⟩ :=
        ih ((i + 1) % src.size_) _ (d.set i b[i]) hnx (by omega) hba1 hbp1 (by simp [hdl])
      rw [hrun] at hstep
      refine ⟨i :: is, hh2, hstep, ?_, ?_⟩
      · simp only [List.length_cons]
        omega
      · intro j hj
        simp only [List.mem_cons] at hj
        rcases hj with e | hj
        · omega
        · exact hmem j hj

/-- C18: for every well-formed source with capacity `C ≥ 1` (so `head_ ≤ C`
and `tail_ ≤ C`; every state reached by member calls is one), the do-while
loop of the copy constructor returns after at least one and at most `C`
iterations (the same bound when `head_ == C`), given fuel for `C`
iterations, and every index at which it reads the source and writes the
copy is at most `C`, inside both blocks of `C + 1` elements. -/
theorem C18_copy_loop_terminates [Inhabited T] (q : QueueRing) (h : Heap T) (fuel : Nat)
    (hC : 1 ≤ q.size_) (hv : Valid (q, h)) (hfuel : q.size_ ≤ fuel)
    (hav : q.size_ + 1 ≤ h.avail) :
    ∃ p h1 is h2, h.alloc ((q.size_ + 1) % SIZE_MOD) = some (p, h1) ∧
      copyLoop q (some p) fuel q.head_ h1 = some (.ok is h2) ∧
      1 ≤ is.length ∧ is.length ≤ q.size_ ∧ (∀ j ∈ is, j ≤ q.size_) ∧
      QueueRing.ctor_copy fuel q h =
        some (.ok { array_ := some p, head_ := q.head_, tail_ := q.tail_,
                    size_ := q.size_ } h2) := by
  have hb := hv.size_bounds
  obtain ⟨a, b, ha, hblk, hbl⟩ := hv.array
  obtain ⟨hmax, hhd, htl, -⟩ := hv
  simp only at hb ha hblk hbl hmax hhd htl
  have e1 : (q.size_ + 1) % SIZE_MOD = q.size_ + 1 := Nat.mod_eq_of_lt (by
    unfold MAX_STACK_SIZE at hmax
    unfold SIZE_MOD
    omega)
  have halloc : h.alloc ((q.size_ + 1) % SIZE_MOD) = some (h.blocks.length,
      { blocks := h.blocks ++ [some (List.replicate (q.size_ + 1) default)],
        avail := h.avail - (q.size_ + 1) }) := by
    simp [Heap.alloc, e1, hav]
  have hpa : h.blocks.length ≠ a := by
    have := (Heap.block_lt hblk).1
    omega
  have hba := Heap.block_append (some (List.replicate (q.size_ + 1) default))
    (h.avail - (q.size_ + 1)) hblk
  have hbp : Heap.block
      { blocks := h.blocks ++ [some (List.replicate (q.size_ + 1) default)],
        avail := h.avail - (q.size_ + 1) } (some h.blocks.length)
        = some (List.replicate (q.size_ + 1) (default : T)) := by
    simp [Heap.block]
  have htC : (q.tail_ + 1) % q.size_ < q.size_ := Nat.mod_lt _ (by omega)
  -- it is enough to run the loop
  suffices hloop : ∃ is h2, copyLoop q (some h.blocks.length) fuel q.head_
      { blocks := h.blocks ++ [some (List.replicate (q.size_ + 1) default)],
        avail := h.avail - (q.size_ + 1) } = some (.ok is h2) ∧
      1 ≤ is.length ∧ is.length ≤ q.size_ ∧ (∀ j ∈ is, j ≤ q.size_) by
    obtain ⟨is, h2, hrun, hl1, hl2, hmem⟩ := hloop
    exact ⟨h.blocks.length, _, is, h2, halloc, hrun, hl1, hl2, hmem,
      by simp only [QueueRing.ctor_copy, halloc, hrun]⟩
  rcases Nat.lt_or_ge q.head_ q.size_ with hlt | hge
  · -- the loop starts below `size_`
    obtain ⟨is, h2, hrun, hlen, hmem⟩ :=
      copyLoop_walk q a h.blocks.length _ b hC hmax htl rfl ha hpa hbl fuel q.head_ _ _ hlt
        (by split <;> omega) hba hbp (by simp)
    refine ⟨is, h2, hrun, ?_, ?_, fun j hj => Nat.le_of_lt (hmem j hj)⟩
    · rw [hlen]
      split <;> omega
    · rw [hlen]
      split <;> omega
  · -- the loop starts at `size_`, the last slot of the block
    have hhC : q.head_ = q.size_ := by omega
    obtain ⟨f, hf⟩ : ∃ f, fuel = f + 1 := ⟨fuel - 1, by omega⟩
    subst hf
    have hib : q.head_ < b.length := by omega
    have hstep := copyLoop_body q a h.blocks.length b _ b[q.head_] f q.head_ _ (by omega)
      hb.2.2 hb.2.1 ha hba hbp (List.getElem?_eq_getElem hib) (by simp; omega)
    have hp2 : h.blocks.length < (h.blocks ++
        [some (List.replicate (q.size_ + 1) (default : T))]).length := by simp
    have hnx : (q.head_ + 1) % q.size_ < q.size_ := Nat.mod_lt _ (by omega)
    by_cases hx : (q.head_ + 1) % q.size_ = (q.tail_ + 1) % q.size_
    · simp only [hx, ne_eq, not_true_eq_false, if_false] at hstep
      refine ⟨[q.head_], _, hstep, by simp, by simp; omega, ?_⟩
      intro j hj
      simp only [List.mem_singleton] at hj
      omega
    · simp only [ne_eq, hx, not_false_eq_true, if_true] at hstep
      obtain ⟨is, h2, hrun, hlen, hmem⟩ :=
        copyLoop_walk q a h.blocks.length _ b hC hmax htl rfl ha hpa hbl f
          ((q.head_ + 1) % q.size_) _
          ((List.replicate (q.size_ + 1) (default : T)).set q.head_ b[q.head_]) hnx
          (by split <;> omega)
          ((@Heap.block_set_other T
            { blocks := h.blocks ++ [some (List.replicate (q.size_ + 1) default)],
              avail := h.avail - (q.size_ + 1) } h.blocks.length a (Ne.symm hpa) _).trans hba)
          (@Heap.block_set_same T
            { blocks := h.blocks ++ [some (List.replicate (q.size_ + 1) default)],
              avail := h.avail - (q.size_ + 1) } h.blocks.length hp2 _)
          (by simp)
      rw [hrun] at hstep
      refine ⟨q.head_ :: is, h2, hstep, by simp, ?_, ?_⟩
      · simp only [List.length_cons, hlen]
        split <;> omega
      · intro j hj
        simp only [List.mem_cons] at hj
        rcases hj with e | hj
        · omega
        · exact Nat.le_of_lt (hmem j hj)

/-- Witness of C18: a source with `head_ == C = 3` and `tail_ = 2`; the loop
visits the slots 3, 1, 2. -/
theorem C18_witness :
    ∃ p h1 is h2,
      Heap.alloc ({ blocks := [some [7, 8, 9, 6]], avail := 4 } : Heap Int) ((3 + 1) % SIZE_MOD)
        = some (p, h1) ∧
      copyLoop { array_ := some 0, head_ := 3, tail_ := 2, size_ := 3 } (some p) 3 3 h1
        = some (.ok is h2) ∧
      1 ≤ is.length ∧ is.length ≤ 3 ∧ (∀ j ∈ is, j ≤ 3) ∧
      QueueRing.ctor_copy 3 { array_ := some 0, head_ := 3, tail_ := 2, size_ := 3 }
          ({ blocks := [some [7, 8, 9, 6]], avail := 4 } : Heap Int) =
        some (.ok { array_ := some p, head_ := 3, tail_ := 2, size_ := 3 } h2) :=
  C18_copy_loop_terminates { array_ := some 0, head_ := 3, tail_ := 2, size_ := 3 }
    ({ blocks := [some [7, 8, 9, 6]], avail := 4 } : Heap Int) 3 (by decide)
    ⟨by decide, by decide, by decide, [7, 8, 9, 6], by decide, by decide⟩
    (by decide) (by decide)

/-! ## Copy assignment (C15) -/

theorem Heap.delete_inv {h hx : Heap T} {p : Ptr} (hd : h.delete p = some hx) :
    p = none ∨ ∃ a0 b0, p = some a0 ∧ h.block (some a0) = some b0 := by
  cases p with
  | none => exact Or.inl rfl
  | some a0 =>
    right
    simp only [Heap.delete] at hd
    cases hb : h.block (some a0) with
    | none => simp [hb] at hd
    | some b0 => exact ⟨a0, b0, rfl, hb⟩

/-- C15: copy assignment `a = b` between two distinct queues, `b` in a state
reached from `QueueRing(C)`, `C ≥ 1`, and `a` owning a block of its own or
none: `a` ends with exactly the members and the block that copy-constructing
from `b` produces (the same `head_`, `tail_`, `size_` as `b`, the same value
in every slot of the new block), the old block of `a` is released, and the
block of `b` is unchanged.  Self-assignment leaves the queue and the heap
unchanged. -/
theorem C15_copy_assignment [Inhabited T] (C : Nat) (a b : QueueRing) (h hx : Heap T)
    (fuel : Nat) (hC : 1 ≤ C) (hr : Reachable C (b, h)) (hfuel : C ≤ fuel)
    (hav : C + 1 ≤ h.avail) (hd : h.delete a.array_ = some hx)
    (hne : a.array_ ≠ b.array_) :
    ∃ c h1 h2, QueueRing.ctor_copy fuel b h = some (.ok c h1) ∧
      a.assign_copy fuel (.other b) h = some (.ok () (c, h2)) ∧
      h2.block c.array_ = h1.block c.array_ ∧
      c.head_ = b.head_ ∧ c.tail_ = b.tail_ ∧ c.size_ = b.size_ ∧
      h2.block b.array_ = h.block b.array_ ∧
      (∀ a0, a.array_ = some a0 → h2.block (some a0) = none) ∧
      a.assign_copy fuel .self h = some (.ok () (a, h)) := by
  obtain ⟨hsz, hmax, ⟨ab, bb, hab, hbb, hbl⟩, h4, -⟩ := hr.inv
  simp only at hsz hab hbb h4
  subst hsz
  have hlt : b.head_ < b.size_ ∧ b.tail_ < b.size_ := by omega
  have e1 : (b.size_ + 1) % SIZE_MOD = b.size_ + 1 := by
    unfold MAX_STACK_SIZE at hmax
    unfold SIZE_MOD
    omega
  have halloc : h.alloc ((b.size_ + 1) % SIZE_MOD) = some (h.blocks.length,
      { blocks := h.blocks ++ [some (List.replicate (b.size_ + 1) default)],
        avail := h.avail - (b.size_ + 1) }) := by
    simp [Heap.alloc, e1, hav]
  have hpa : h.blocks.length ≠ ab := by
    have := (Heap.block_lt hbb).1
    omega
  have hba := Heap.block_append (some (List.replicate (b.size_ + 1) default))
    (h.avail - (b.size_ + 1)) hbb
  have hbp : Heap.block
      { blocks := h.blocks ++ [some (List.replicate (b.size_ + 1) default)],
        avail := h.avail - (b.size_ + 1) } (some h.blocks.length)
        = some (List.replicate (b.size_ + 1) (default : T)) := by
    simp [Heap.block]
  obtain ⟨is, hh2, d2, hrun, hba2, hbp2, -, hfr, -, -, -⟩ :=
    copyLoop_sim b ab h.blocks.length bb hmax hlt.2 hab hpa hbl fuel b.head_ _ _ hlt.1
      (by split <;> omega) hba hbp (by simp)
  have hcopy : QueueRing.ctor_copy fuel b h = some (.ok
      { array_ := some h.blocks.length, head_ := b.head_, tail_ := b.tail_,
        size_ := b.size_ } hh2) := by
    simp [QueueRing.ctor_copy, halloc, hrun]
  have hself : a.assign_copy fuel .self h = some (.ok () (a, h)) := rfl
  rcases Heap.delete_inv hd with hnone | ⟨a0, b0, ha0, hb0⟩
  · -- `a` owns no block
    refine ⟨_, hh2, hh2, hcopy, ?_, rfl, rfl, rfl, rfl, ?_, ?_, hself⟩
    · simp [QueueRing.assign_copy, hcopy, swap, hnone, Heap.delete]
    · rw [hab, hba2, hbb]
    · intro a1 e
      rw [hnone] at e
      cases e
  · -- `a` owns the block `a0`
    have ha0p : a0 ≠ h.blocks.length := by
      have := (Heap.block_lt hb0).1
      omega
    have hb0' : hh2.block (some a0) = some b0 := by
      rw [hfr a0 ha0p]
      exact Heap.block_append _ _ hb0
    have hab0 : ab ≠ a0 := by
      intro e
      apply hne
      rw [ha0, hab, e]
    have hlt0 := (Heap.block_lt hb0').1
    refine ⟨_, hh2, { blocks := hh2.blocks.set a0 none, avail := hh2.avail + b0.length },
      hcopy, ?_, ?_, rfl, rfl, rfl, ?_, ?_, hself⟩
    · simp [QueueRing.assign_copy, hcopy, swap, ha0, Heap.delete, hb0']
    · exact @Heap.block_set_other T
        { blocks := hh2.blocks, avail := hh2.avail + b0.length } a0 h.blocks.length
        (Ne.symm ha0p) none
    · rw [hab, hbb, ← hba2]
      exact @Heap.block_set_other T
        { blocks := hh2.blocks, avail := hh2.avail + b0.length } a0 ab hab0 none
    · intro a1 e
      rw [ha0] at e
      cases e
      exact @Heap.block_set_same T
        { blocks := hh2.blocks, avail := hh2.avail + b0.length } a0 hlt0 none

/-- Witness of C15: `a` a fresh queue of capacity 2 in block 0, `b` the
queue of capacity 3 in block 1 after `enQueue(10)`, `enQueue(20)`,
`deQueue()`, `enQueue(30)`. -/
theorem C15_witness :
    ∃ c h1 h2,
      QueueRing.ctor_copy 3 { array_ := some 1, head_ := 2, tail_ := 0, size_ := 3 }
          ({ blocks := [some [0, 0, 0], some [30, 10, 20, 0]], avail := 4 } : Heap Int)
        = some (.ok c h1) ∧
      QueueRing.assign_copy 3 { array_ := some 0, head_ := 0, tail_ := 0, size_ := 2 }
          (.other { array_ := some 1, head_ := 2, tail_ := 0, size_ := 3 })
          ({ blocks := [some [0, 0, 0], some [30, 10, 20, 0]], avail := 4 } : Heap Int)
        = some (.ok () (c, h2)) ∧
      h2.block c.array_ = h1.block c.array_ ∧
      c.head_ = 2 ∧ c.tail_ = 0 ∧ c.size_ = 3 ∧
      h2.block (some 1) = Heap.block
        ({ blocks := [some [0, 0, 0], some [30, 10, 20, 0]], avail := 4 } : Heap Int) (some 1) ∧
      (∀ a0, some 0 = some a0 → h2.block (some a0) = none) ∧
      QueueRing.assign_copy 3 { array_ := some 0, head_ := 0, tail_ := 0, size_ := 2 } .self
          ({ blocks := [some [0, 0, 0], some [30, 10, 20, 0]], avail := 4 } : Heap Int)
        = some (.ok () ({ array_ := some 0, head_ := 0, tail_ := 0, size_ := 2 },
            { blocks := [some [0, 0, 0], some [30, 10, 20, 0]], avail := 4 })) :=
  C15_copy_assignment 3 { array_ := some 0, head_ := 0, tail_ := 0, size_ := 2 }
    { array_ := some 1, head_ := 2, tail_ := 0, size_ := 3 }
    ({ blocks := [some [0, 0, 0], some [30, 10, 20, 0]], avail := 4 } : Heap Int)
    { blocks := [none, some [30, 10, 20, 0]], avail := 7 } 3 (by decide)
    ⟨{ blocks := [some [0, 0, 0]], avail := 8 },
      [.enQueue 10, .enQueue 20, .deQueue, .enQueue 30],
      [.done, .done, .value 10, .done], by decide⟩
    (by decide) (by decide) (by decide) (by decide)

end RingQueue
